import Mathlib

/-!
Verification development for the pyomo `component_block.py` block-storage
subsystem (`pyomo/core/base/component_block.py`).

The development has two views of the same code:

* an operational model of the dynamic `block` class's attribute protocol
  (`__setattr__`, `__delattr__`, `children`) over an explicit state
  (`BlockState`), used for the attach/detach claims; and
* a structural tree model (`Node`) of a fully built storage tree, used for
  the traversal claims (`preorder_traversal`, `postorder_traversal`,
  `components`, `blocks`, `collect_ctypes`, `generate_names`).

Python `OrderedDict`s are modelled as association lists with the usual
insert-in-place/append semantics; component categories (`ctype`) are an
opaque tag type with the `Block` category distinguished, exactly as the
source distinguishes it.
-/

namespace PyomoBlock

/-- Component categories ("ctypes"). The source treats the ctype as an opaque
tag compared with `is`/`==`, with the `Block` ctype distinguished by the
traversal code; all other categories are opaque. -/
inductive Ctype where
  | Block
  | C (n : Nat)
deriving DecidableEq

/-! ## Ordered association lists: the `OrderedDict` model

`odInsert` replaces the value of the first matching key in place (keeping
its position) and appends a fresh key at the end; `odErase` removes the
first matching entry; `odLookup` finds the first matching entry. Under the
no-duplicate-keys invariant these are exactly Python's `OrderedDict`
assignment, deletion and lookup. -/

section Assoc

variable {κ α : Type} [DecidableEq κ]

def odLookup : List (κ × α) → κ → Option α
  | [], _ => none
  | (k0, v) :: rest, k => if k0 = k then some v else odLookup rest k

def odInsert : List (κ × α) → κ → α → List (κ × α)
  | [], k, v => [(k, v)]
  | (k0, v0) :: rest, k, v =>
    if k0 = k then (k, v) :: rest else (k0, v0) :: odInsert rest k v

def odErase : List (κ × α) → κ → List (κ × α)
  | [], _ => []
  | (k0, v0) :: rest, k => if k0 = k then rest else (k0, v0) :: odErase rest k

end Assoc

/-! ## The dynamic `block` attribute protocol

An `Entity` models an object satisfying `isinstance(c, (IComponent,
IComponentContainer))`: it carries an identity (`eid`, standing for the
Python object identity used by `is` and by the parent back-reference) and a
category tag. An `AttrVal` is anything storable in the block's `__dict__`:
either such an entity or a plain (uncategorized) value. -/

structure Entity where
  eid : Nat
  ct : Ctype
deriving DecidableEq

inductive AttrVal where
  | comp (e : Entity)
  | plain (v : Nat)
deriving DecidableEq

/-- State of one dynamic `block` (class `block`, `component_block.py`):
`dict` is the instance `__dict__` (restricted to non-mangled names),
`order` is `self.__order`, `byctype` is `self.__byctype`, and `parent`
records, per entity identity, the identity of the block its `_parent`
weakref points at (`bid` is this block's own identity). -/
structure BlockState where
  bid : Nat
  dict : List (String × AttrVal)
  order : List (String × Entity)
  byctype : List (Ctype × List (String × Entity))
  parent : List (Nat × Nat)
deriving DecidableEq

/-- Bucket of a category in `__byctype`, as read by `children`:
`self.__byctype.get(ctype, {})`. -/
def bucketOf (b : List (Ctype × List (String × Entity))) (c : Ctype) :
    List (String × Entity) :=
  (odLookup b c).getD []

/-- Insertion into `__byctype` as performed by `__setattr__` (lines 633-635):
the bucket is created on demand, then `self.__byctype[ctype][name] = c`. -/
def bucketInsert (b : List (Ctype × List (String × Entity))) (c : Ctype)
    (k : String) (e : Entity) : List (Ctype × List (String × Entity)) :=
  match odLookup b c with
  | some bl => odInsert b c (odInsert bl k e)
  | none => b ++ [(c, [(k, e)])]

/-- Removal from `__byctype` as performed by `__delattr__` (lines 663-665):
`del self.__byctype[ctype][name]`, then the bucket is deleted if empty. -/
def bucketErase (b : List (Ctype × List (String × Entity))) (c : Ctype)
    (k : String) : List (Ctype × List (String × Entity)) :=
  match odLookup b c with
  | some bl =>
    if odErase bl k = [] then odErase b c else odInsert b c (odErase bl k)
  | none => b

/-- Core of `block.__delattr__` (lines 659-667), assuming the name is
present: if the stored value is a component the name is removed from
`__order` and from its ctype bucket (deleting the bucket if it became
empty) and the component's parent reference is cleared; then the
`super().__delattr__` removes the `__dict__` entry. -/
def delattrCore (st : BlockState) (n : String) : BlockState :=
  match odLookup st.dict n with
  | some (.comp e) =>
    { st with
      dict := odErase st.dict n
      order := odErase st.order n
      byctype := bucketErase st.byctype e.ct n
      parent := odErase st.parent e.eid }
  | _ => { st with dict := odErase st.dict n }

/-- The `block.__delattr__` entry point: `getattr(self, name)` raises for an
unbound name, otherwise `delattrCore` runs. -/
def blockDelattr (st : BlockState) (n : String) : Except Unit BlockState :=
  if (odLookup st.dict n).isSome then .ok (delattrCore st n) else .error ()

/-- Result of `block.__setattr__`: success (with the flag recording whether
the implicit-replacement warning was logged), or the `ValueError` raise,
carrying the state at the point of the raise (the raising branch performs
no writes, so it is the input state). -/
inductive SetResult where
  | ok (warned : Bool) (st : BlockState)
  | err (st : BlockState)
deriving DecidableEq

/-- State reached by the parentless-component path of `block.__setattr__`
(lines 620-637 and the final line 657): an implicit-replace `delattr` if
the name was already bound, then registration in `__byctype` (bucket
created on demand) and `__order`, the parent weakref set to this block,
and the `super().__setattr__` write into `__dict__`. -/
def attachState (st : BlockState) (n : String) (e : Entity) : BlockState :=
  let st1 := if (odLookup st.dict n).isSome then delattrCore st n else st
  { st1 with
    byctype := bucketInsert st1.byctype e.ct n e
    order := odInsert st1.order n e
    parent := odInsert st1.parent e.eid st.bid
    dict := odInsert st1.dict n (.comp e) }

/-- Translation of `block.__setattr__` (lines 618-657). A non-component
value only reaches `super().__setattr__` (a plain `__dict__` write). A
parentless component is indexed in `__byctype` and `__order` and its parent
set, after an implicit-replace `delattr` (with warning) when the name was
already bound. A component that already has a parent is a silent no-op when
it is exactly the object already stored at that name, and raises
`ValueError` otherwise. -/
def blockSetattr (st : BlockState) (n : String) (v : AttrVal) : SetResult :=
  match v with
  | .plain w => .ok false { st with dict := odInsert st.dict n (.plain w) }
  | .comp e =>
    match odLookup st.parent e.eid with
    | none => .ok (odLookup st.dict n).isSome (attachState st n e)
    | some _ =>
      if odLookup st.dict n = some (.comp e) then
        .ok false { st with dict := odInsert st.dict n (.comp e) }
      else
        .err st

/-- Translation of `block.children` (lines 588-612): the full declaration
order when no ctype is requested, otherwise the requested ctype's bucket
(empty when absent). -/
def blockChildren (st : BlockState) (ct : Option Ctype) : List (String × Entity) :=
  match ct with
  | none => st.order
  | some c => bucketOf st.byctype c

/-- A fresh dynamic block, as built by `block.__init__` (lines 537-541). -/
def freshBlock (bid : Nat) : BlockState :=
  { bid := bid, dict := [], order := [], byctype := [], parent := [] }

/-- The attach/detach operations of the spec's DynamicBlock contract,
performed through the attribute protocol. -/
inductive BOp where
  | attach (n : String) (e : Entity)
  | detach (n : String)

/-- Effect of one operation on the state: a raising call mutates nothing. -/
def applyOp (st : BlockState) : BOp → BlockState
  | .attach n e =>
    match blockSetattr st n (.comp e) with
    | .ok _ st2 => st2
    | .err st2 => st2
  | .detach n =>
    match blockDelattr st n with
    | .ok st2 => st2
    | .error _ => st

def applyOps (st : BlockState) : List BOp → BlockState
  | [] => st
  | op :: rest => applyOps (applyOp st op) rest

/-- Translation of `StaticBlock.children` (lines 855-878): iterate all
attributes (`_getattrs`) and yield only the values that are categorized
objects (`isinstance(child, ICategorizedObject)`), filtered by the
requested ctype; bookkeeping slots such as `_parent` and `_active` hold
plain (uncategorized) values and are never yielded. -/
def staticChildren (attrs : List (String × AttrVal)) (ct : Option Ctype) :
    List (String × AttrVal) :=
  attrs.filter (fun p =>
    match p.2 with
    | .comp e =>
      match ct with
      | none => true
      | some c => e.ct = c
    | .plain _ => false)

/-- A sample entity of an opaque non-block category, for concrete checks. -/
def eVar : Entity := ⟨1, .C 0⟩

/-- A second sample entity of another category, for concrete checks. -/
def eCon : Entity := ⟨2, .C 1⟩

/-- A one-child block state (child `eVar` at name "x"), for concrete checks. -/
def stOne : BlockState :=
  { bid := 0
    dict := [("x", .comp eVar)]
    order := [("x", eVar)]
    byctype := [(.C 0, [("x", eVar)])]
    parent := [(1, 0)] }

/-! ## The storage tree model

A `Node` is a fully built storage tree as the traversal engine sees it:
a leaf component (`_is_component and not _is_container`), a block
(`_is_component and _is_container`, ctype `Block`, always carrying an
active flag), or a homogeneous component container
(`_is_container and not _is_component`: a `ComponentList`/`ComponentDict`
such as `block_list`/`block_dict`), whose active flag is present exactly
when the class mixes in `_IActiveComponentContainer`. Children are kept
with their storage keys in declaration order. -/

inductive Node where
  | leaf (ct : Ctype) (act : Option Bool)
  | blk (act : Bool) (cs : List (String × Node))
  | cont (ct : Ctype) (act : Option Bool) (cs : List (String × Node))

/-- The `ctype` property; a block's ctype is `Block`. -/
def Node.ctype : Node → Ctype
  | .leaf c _ => c
  | .blk _ _ => .Block
  | .cont c _ _ => c

/-- The `active` attribute when the object has one. -/
def Node.activeFlag : Node → Option Bool
  | .leaf _ a => a
  | .blk a _ => some a
  | .cont _ a _ => a

/-- `getattr(obj, "active", True)`: absent flags count as active. -/
def Node.activeDefault (n : Node) : Bool :=
  n.activeFlag.getD true

/-- The `_is_component` classification flag. -/
def Node.isComponent : Node → Bool
  | .leaf _ _ => true
  | .blk _ _ => true
  | .cont _ _ _ => false

/-- The `_is_container` classification flag. -/
def Node.isContainer : Node → Bool
  | .leaf _ _ => false
  | .blk _ _ => true
  | .cont _ _ _ => true

mutual
/-- Size of a tree, the termination measure for the traversal functions. -/
def Node.sz : Node → Nat
  | .leaf _ _ => 1
  | .blk _ cs => 1 + Node.szL cs
  | .cont _ _ cs => 1 + Node.szL cs

def Node.szL : List (String × Node) → Nat
  | [] => 0
  | (_, n) :: rest => Node.sz n + Node.szL rest
end

theorem Node.sz_pos (n : Node) : 0 < n.sz := by
  cases n with
  | leaf ct act => simp [Node.sz]
  | blk act cs => simp [Node.sz]
  | cont ct act cs => simp [Node.sz]

theorem Node.sz_le_szL {k : String} {n : Node} {cs : List (String × Node)}
    (h : (k, n) ∈ cs) : n.sz ≤ Node.szL cs := by
  induction cs with
  | nil => cases h
  | cons hd tl ih =>
    obtain ⟨k0, n0⟩ := hd
    rcases List.mem_cons.mp h with h1 | h1
    · obtain ⟨-, h2⟩ := Prod.mk.injEq .. ▸ h1
      rw [h2]
      simp only [Node.szL]
      omega
    · have := ih h1
      simp only [Node.szL]
      omega

theorem Node.sz_lt_cont {k : String} {n : Node} {ct : Ctype} {act : Option Bool}
    {cs : List (String × Node)} (h : (k, n) ∈ cs) :
    n.sz < (Node.cont ct act cs).sz := by
  have := Node.sz_le_szL h
  simp only [Node.sz]
  omega

theorem Node.sz_lt_blk {k : String} {n : Node} {act : Bool}
    {cs : List (String × Node)} (h : (k, n) ∈ cs) :
    n.sz < (Node.blk act cs).sz := by
  have := Node.sz_le_szL h
  simp only [Node.sz]
  omega

/-- Modelled from the spec: `preorder_traversal` of an external homogeneous
container class (`ComponentList`/`ComponentDict`, whose code is outside
`src/`), as invoked by `_block_base.preorder_traversal` on a child
container. Per the spec's traversal-engine contract the container visits
itself first and walks its members in declaration order, recursing into
nested (non-component) containers; component members (leaf components, or
blocks when this is a container of blocks) are yielded one at a time
without descending into them — the block engine re-traverses component
members itself. A member is skipped when `active=True` was requested and
its active flag is explicitly False, and the traversal stops at once when
the container itself fails that filter. -/
def preorderCont (a : Bool) (rk : Option String) : Node → List (Option String × Node)
  | .cont ct actf cs =>
    if a ∧ ¬(Option.getD actf true) then []
    else
      (rk, Node.cont ct actf cs) ::
        cs.attach.flatMap (fun x =>
          match x with
          | ⟨(k, .cont c2 a2 cs2), _⟩ =>
            if a ∧ ¬(Node.cont c2 a2 cs2).activeDefault then []
            else preorderCont a (some k) (.cont c2 a2 cs2)
          | ⟨(k, ch), _⟩ =>
            if a ∧ ¬ch.activeDefault then []
            else [(some k, ch)])
  | n => [(rk, n)]
termination_by n => n.sz
decreasing_by
  exact Node.sz_lt_cont (by assumption)

/-- The per-member step of `preorderCont`, in plain (attach-free) form. -/
def preorderContStep (a : Bool) : String × Node → List (Option String × Node)
  | (k, .cont c2 a2 cs2) =>
    if a ∧ ¬(Node.cont c2 a2 cs2).activeDefault then []
    else preorderCont a (some k) (.cont c2 a2 cs2)
  | (k, ch) =>
    if a ∧ ¬ch.activeDefault then []
    else [(some k, ch)]

/-- Modelled from the spec: `postorder_traversal` of an external
homogeneous container class — the same walk and filters as `preorderCont`
but visiting the container itself after its members. -/
def postorderCont (a : Bool) (rk : Option String) : Node → List (Option String × Node)
  | .cont ct actf cs =>
    if a ∧ ¬(Option.getD actf true) then []
    else
      (cs.attach.flatMap (fun x =>
          match x with
          | ⟨(k, .cont c2 a2 cs2), _⟩ =>
            if a ∧ ¬(Node.cont c2 a2 cs2).activeDefault then []
            else postorderCont a (some k) (.cont c2 a2 cs2)
          | ⟨(k, ch), _⟩ =>
            if a ∧ ¬ch.activeDefault then []
            else [(some k, ch)]))
        ++ [(rk, Node.cont ct actf cs)]
  | n => [(rk, n)]
termination_by n => n.sz
decreasing_by
  exact Node.sz_lt_cont (by assumption)

/-- The per-member step of `postorderCont`, in plain (attach-free) form. -/
def postorderContStep (a : Bool) : String × Node → List (Option String × Node)
  | (k, .cont c2 a2 cs2) =>
    if a ∧ ¬(Node.cont c2 a2 cs2).activeDefault then []
    else postorderCont a (some k) (.cont c2 a2 cs2)
  | (k, ch) =>
    if a ∧ ¬ch.activeDefault then []
    else [(some k, ch)]

theorem attach_flatMap_eq {β γ : Type} (l : List β) (f : {x // x ∈ l} → List γ)
    (g : β → List γ) (hfg : ∀ x : {x // x ∈ l}, f x = g x.1) :
    l.attach.flatMap f = l.flatMap g := by
  induction l with
  | nil => simp
  | cons a t ih =>
    rw [List.attach_cons, List.flatMap_cons, List.flatMap_map, List.flatMap_cons,
      hfg ⟨a, List.mem_cons_self a t⟩]
    congr 1
    exact ih _ (fun x => hfg _)

/-- Unfolding of `preorderCont` on a container, attach-free. -/
theorem preorderCont_cont (a : Bool) (rk : Option String) (ct : Ctype)
    (actf : Option Bool) (cs : List (String × Node)) :
    preorderCont a rk (.cont ct actf cs) =
      if a ∧ ¬(Option.getD actf true) then []
      else (rk, Node.cont ct actf cs) :: cs.flatMap (preorderContStep a) := by
  rw [preorderCont]
  by_cases h : a ∧ ¬(Option.getD actf true)
  · rw [if_pos h, if_pos h]
  · rw [if_neg h, if_neg h]
    congr 1
    refine attach_flatMap_eq _ _ _ ?_
    rintro ⟨⟨k, ch⟩, hx⟩
    cases ch <;> rfl

/-- Unfolding of `postorderCont` on a container, attach-free. -/
theorem postorderCont_cont (a : Bool) (rk : Option String) (ct : Ctype)
    (actf : Option Bool) (cs : List (String × Node)) :
    postorderCont a rk (.cont ct actf cs) =
      if a ∧ ¬(Option.getD actf true) then []
      else cs.flatMap (postorderContStep a) ++ [(rk, Node.cont ct actf cs)] := by
  rw [postorderCont]
  by_cases h : a ∧ ¬(Option.getD actf true)
  · rw [if_pos h, if_pos h]
  · rw [if_neg h, if_neg h]
    congr 1
    refine attach_flatMap_eq _ _ _ ?_
    rintro ⟨⟨k, ch⟩, hx⟩
    cases ch <;> rfl

/-- Every entry of a container preorder is the container itself or a
strictly smaller node. -/
theorem preorderCont_sz (a : Bool) :
    ∀ (N : Nat) (c : Node), c.sz ≤ N → ∀ (rk : Option String),
      ∀ p ∈ preorderCont a rk c, p.2 = c ∨ p.2.sz < c.sz := by
  intro N
  induction N with
  | zero =>
    intro c hc
    have := Node.sz_pos c
    omega
  | succ N ih =>
    intro c hc rk p hp
    cases c with
    | leaf ct actf =>
      simp only [preorderCont, List.mem_singleton] at hp
      subst hp
      exact Or.inl rfl
    | blk act cs =>
      simp only [preorderCont, List.mem_singleton] at hp
      subst hp
      exact Or.inl rfl
    | cont ct actf cs =>
      rw [preorderCont_cont] at hp
      by_cases h : a ∧ ¬(Option.getD actf true)
      · rw [if_pos h] at hp
        cases hp
      · rw [if_neg h] at hp
        rcases List.mem_cons.mp hp with rfl | hp
        · exact Or.inl rfl
        · obtain ⟨⟨k, ch⟩, hm, hpf⟩ := List.mem_flatMap.mp hp
          refine Or.inr ?_
          have hchsz : ch.sz < (Node.cont ct actf cs).sz := Node.sz_lt_cont hm
          cases ch with
          | cont c2 a2 cs2 =>
            simp only [preorderContStep] at hpf
            by_cases h2 : a ∧ ¬(Node.cont c2 a2 cs2).activeDefault
            · rw [if_pos h2] at hpf
              cases hpf
            · rw [if_neg h2] at hpf
              have hsub : (Node.cont c2 a2 cs2).sz ≤ N := by
                simp only [Node.sz] at hc hchsz ⊢
                omega
              rcases ih _ hsub _ p hpf with he | hlt
              · rw [he]
                exact hchsz
              · exact lt_trans hlt hchsz
          | leaf c2 a2 =>
            simp only [preorderContStep] at hpf
            by_cases h2 : a ∧ ¬(Node.leaf c2 a2).activeDefault
            · rw [if_pos h2] at hpf
              cases hpf
            · rw [if_neg h2] at hpf
              rcases List.mem_singleton.mp hpf with rfl
              exact hchsz
          | blk a2 cs2 =>
            simp only [preorderContStep] at hpf
            by_cases h2 : a ∧ ¬(Node.blk a2 cs2).activeDefault
            · rw [if_pos h2] at hpf
              cases hpf
            · rw [if_neg h2] at hpf
              rcases List.mem_singleton.mp hpf with rfl
              exact hchsz

/-- Every entry of a container postorder is the container itself or a
strictly smaller node. -/
theorem postorderCont_sz (a : Bool) :
    ∀ (N : Nat) (c : Node), c.sz ≤ N → ∀ (rk : Option String),
      ∀ p ∈ postorderCont a rk c, p.2 = c ∨ p.2.sz < c.sz := by
  intro N
  induction N with
  | zero =>
    intro c hc
    have := Node.sz_pos c
    omega
  | succ N ih =>
    intro c hc rk p hp
    cases c with
    | leaf ct actf =>
      simp only [postorderCont, List.mem_singleton] at hp
      subst hp
      exact Or.inl rfl
    | blk act cs =>
      simp only [postorderCont, List.mem_singleton] at hp
      subst hp
      exact Or.inl rfl
    | cont ct actf cs =>
      rw [postorderCont_cont] at hp
      by_cases h : a ∧ ¬(Option.getD actf true)
      · rw [if_pos h] at hp
        cases hp
      · rw [if_neg h] at hp
        rcases List.mem_append.mp hp with hp | hp
        · obtain ⟨⟨k, ch⟩, hm, hpf⟩ := List.mem_flatMap.mp hp
          refine Or.inr ?_
          have hchsz : ch.sz < (Node.cont ct actf cs).sz := Node.sz_lt_cont hm
          cases ch with
          | cont c2 a2 cs2 =>
            simp only [postorderContStep] at hpf
            by_cases h2 : a ∧ ¬(Node.cont c2 a2 cs2).activeDefault
            · rw [if_pos h2] at hpf
              cases hpf
            · rw [if_neg h2] at hpf
              have hsub : (Node.cont c2 a2 cs2).sz ≤ N := by
                simp only [Node.sz] at hc hchsz ⊢
                omega
              rcases ih _ hsub _ p hpf with he | hlt
              · rw [he]
                exact hchsz
              · exact lt_trans hlt hchsz
          | leaf c2 a2 =>
            simp only [postorderContStep] at hpf
            by_cases h2 : a ∧ ¬(Node.leaf c2 a2).activeDefault
            · rw [if_pos h2] at hpf
              cases hpf
            · rw [if_neg h2] at hpf
              rcases List.mem_singleton.mp hpf with rfl
              exact hchsz
          | blk a2 cs2 =>
            simp only [postorderContStep] at hpf
            by_cases h2 : a ∧ ¬(Node.blk a2 cs2).activeDefault
            · rw [if_pos h2] at hpf
              cases hpf
            · rw [if_neg h2] at hpf
              rcases List.mem_singleton.mp hpf with rfl
              exact hchsz
        · rcases List.mem_singleton.mp hp with rfl
          exact Or.inl rfl

theorem lex_of_le {x y : Nat} (h : x ≤ y) :
    Prod.Lex (· < ·) (· < ·) (x, 0) (y, 1) := by
  rcases Nat.lt_or_ge x y with h1 | h1
  · exact Prod.Lex.left _ _ h1
  · have hxy : x = y := Nat.le_antisymm h h1
    subst hxy
    exact Prod.Lex.right _ (by omega)

mutual
/-- Translation of `_block_base.preorder_traversal` (lines 194-294), by
node kind. On a block: return at once if `active=True` was requested and
the block is inactive (line 233); yield the block itself when
`include_parent_blocks` holds or no ctype restriction was given or the
restriction is `Block` (lines 235-241); then run the child loop
(`preorderKids`) over `children(return_key=True)` in declaration order.
On a leaf component (reached only when the engine re-traverses a component
member yielded by a container of blocks): modelled from the spec, the
component's own traversal yields just the component, subject to the active
filter (`IComponent`, outside `src/`). On a container the container
engine runs. -/
def preorder (ct : Option Ctype) (a ipb : Bool) (rk : Option String) :
    Node → List (Option String × Node)
  | .blk act cs =>
    if a ∧ ¬act then []
    else
      (if ipb ∨ ct = none ∨ ct = some .Block then [(rk, Node.blk act cs)] else [])
        ++ preorderKids ct a ipb cs
  | .leaf c actf =>
    if a ∧ ¬(Option.getD actf true) then [] else [(rk, Node.leaf c actf)]
  | .cont c actf cs => preorderCont a rk (.cont c actf cs)
termination_by n => (n.sz, 0)
decreasing_by
  exact Prod.Lex.left _ _ (by simp only [Node.sz]; omega)

/-- The child loop of `_block_base.preorder_traversal` (lines 242-294).
A child is skipped with its whole subtree unless its ctype is the
requested one, no ctype was requested, or its ctype is `Block` (lines
243-245); a surviving child is skipped with its subtree if `active=True`
was requested and its active flag is explicitly False (lines 246-247).
Then: a leaf is yielded with its key (lines 248-253); a block is recursed
into with the same arguments (lines 286-294); a container of blocks is
walked by the container engine, each non-component entry (the container
and nested containers of blocks) yielded only when no ctype was requested,
the request is `Block`, or `include_parent_blocks` holds, and each
component entry (a block) re-traversed by the block engine (lines
256-279); a container of any other ctype is walked by the container
engine with its entries yielded directly (lines 280-285). -/
def preorderKids (ct : Option Ctype) (a ipb : Bool) :
    List (String × Node) → List (Option String × Node)
  | [] => []
  | (k, ch) :: rest =>
    (if ct = none ∨ ct = some ch.ctype ∨ ch.ctype = .Block then
      if ¬a ∨ ch.activeDefault then
        match ch with
        | .leaf c2 a2 => [(some k, Node.leaf c2 a2)]
        | .blk a2 cs2 => preorder ct a ipb (some k) (.blk a2 cs2)
        | .cont c2 a2 cs2 =>
          if c2 = .Block then
            (preorderCont a (some k) (.cont c2 a2 cs2)).attach.flatMap (fun x =>
              match x with
              | ⟨(ok, .cont c3 a3 cs3), hx⟩ =>
                if ct = none ∨ ct = some .Block ∨ ipb then [(ok, Node.cont c3 a3 cs3)]
                else []
              | ⟨(ok, obj), hx⟩ => preorder ct a ipb ok obj)
          else preorderCont a (some k) (.cont c2 a2 cs2)
      else []
    else []) ++ preorderKids ct a ipb rest
termination_by l => (Node.szL l, 1)
decreasing_by
  all_goals first
  | · refine lex_of_le ?_
      rcases preorderCont_sz a _ _ (Nat.le_refl _) _ _ hx with he | hlt
      · rw [show ((_, obj) : Option String × Node).2 = obj from rfl] at he
        rw [he]
        simp only [Node.szL]
        omega
      · rw [show ((_, obj) : Option String × Node).2 = obj from rfl] at hlt
        simp only [Node.szL] at hlt ⊢
        omega
  | · exact lex_of_le (by simp only [Node.szL]; omega)
  | · refine Prod.Lex.left _ _ ?_
      simp only [Node.szL]
      exact Nat.lt_add_of_pos_left (Node.sz_pos _)
end

mutual
/-- Translation of `_block_base.postorder_traversal` (lines 296-396):
exactly the filtering and scoping of `preorder`, but the node itself is
yielded after the child loop (lines 390-396) instead of before. -/
def postorder (ct : Option Ctype) (a ipb : Bool) (rk : Option String) :
    Node → List (Option String × Node)
  | .blk act cs =>
    if a ∧ ¬act then []
    else
      postorderKids ct a ipb cs
        ++ (if ipb ∨ ct = none ∨ ct = some .Block then [(rk, Node.blk act cs)] else [])
  | .leaf c actf =>
    if a ∧ ¬(Option.getD actf true) then [] else [(rk, Node.leaf c actf)]
  | .cont c actf cs => postorderCont a rk (.cont c actf cs)
termination_by n => (n.sz, 0)
decreasing_by
  exact Prod.Lex.left _ _ (by simp only [Node.sz]; omega)

/-- The child loop of `_block_base.postorder_traversal` (lines 337-389),
with the same skip rules as `preorderKids` and the container engine's
postorder used for child containers. -/
def postorderKids (ct : Option Ctype) (a ipb : Bool) :
    List (String × Node) → List (Option String × Node)
  | [] => []
  | (k, ch) :: rest =>
    (if ct = none ∨ ct = some ch.ctype ∨ ch.ctype = .Block then
      if ¬a ∨ ch.activeDefault then
        match ch with
        | .leaf c2 a2 => [(some k, Node.leaf c2 a2)]
        | .blk a2 cs2 => postorder ct a ipb (some k) (.blk a2 cs2)
        | .cont c2 a2 cs2 =>
          if c2 = .Block then
            (postorderCont a (some k) (.cont c2 a2 cs2)).attach.flatMap (fun x =>
              match x with
              | ⟨(ok, .cont c3 a3 cs3), hx⟩ =>
                if ct = none ∨ ct = some .Block ∨ ipb then [(ok, Node.cont c3 a3 cs3)]
                else []
              | ⟨(ok, obj), hx⟩ => postorder ct a ipb ok obj)
          else postorderCont a (some k) (.cont c2 a2 cs2)
      else []
    else []) ++ postorderKids ct a ipb rest
termination_by l => (Node.szL l, 1)
decreasing_by
  all_goals first
  | · refine lex_of_le ?_
      rcases postorderCont_sz a _ _ (Nat.le_refl _) _ _ hx with he | hlt
      · rw [show ((_, obj) : Option String × Node).2 = obj from rfl] at he
        rw [he]
        simp only [Node.szL]
        omega
      · rw [show ((_, obj) : Option String × Node).2 = obj from rfl] at hlt
        simp only [Node.szL] at hlt ⊢
        omega
  | · exact lex_of_le (by simp only [Node.szL]; omega)
  | · refine Prod.Lex.left _ _ ?_
      simp only [Node.szL]
      exact Nat.lt_add_of_pos_left (Node.sz_pos _)
end

/-- The per-entry handling of a container-of-blocks traversal inside the
preorder child loop (lines 261-278), attach-free: a non-component entry is
emitted subject to the ctype/include_parent_blocks rule; a component entry
is re-traversed by the block engine. -/
def preorderObjStep (ct : Option Ctype) (a ipb : Bool) :
    Option String × Node → List (Option String × Node)
  | (ok, .cont c3 a3 cs3) =>
    if ct = none ∨ ct = some .Block ∨ ipb then [(ok, Node.cont c3 a3 cs3)] else []
  | (ok, obj) => preorder ct a ipb ok obj

/-- One step of the preorder child loop, attach-free. -/
def preorderChildStep (ct : Option Ctype) (a ipb : Bool) :
    String × Node → List (Option String × Node)
  | (k, ch) =>
    if ct = none ∨ ct = some ch.ctype ∨ ch.ctype = .Block then
      if ¬a ∨ ch.activeDefault then
        match ch with
        | .leaf c2 a2 => [(some k, Node.leaf c2 a2)]
        | .blk a2 cs2 => preorder ct a ipb (some k) (.blk a2 cs2)
        | .cont c2 a2 cs2 =>
          if c2 = .Block then
            (preorderCont a (some k) (.cont c2 a2 cs2)).flatMap (preorderObjStep ct a ipb)
          else preorderCont a (some k) (.cont c2 a2 cs2)
      else []
    else []

/-- The per-entry handling of a container-of-blocks traversal inside the
postorder child loop, attach-free. -/
def postorderObjStep (ct : Option Ctype) (a ipb : Bool) :
    Option String × Node → List (Option String × Node)
  | (ok, .cont c3 a3 cs3) =>
    if ct = none ∨ ct = some .Block ∨ ipb then [(ok, Node.cont c3 a3 cs3)] else []
  | (ok, obj) => postorder ct a ipb ok obj

/-- One step of the postorder child loop, attach-free. -/
def postorderChildStep (ct : Option Ctype) (a ipb : Bool) :
    String × Node → List (Option String × Node)
  | (k, ch) =>
    if ct = none ∨ ct = some ch.ctype ∨ ch.ctype = .Block then
      if ¬a ∨ ch.activeDefault then
        match ch with
        | .leaf c2 a2 => [(some k, Node.leaf c2 a2)]
        | .blk a2 cs2 => postorder ct a ipb (some k) (.blk a2 cs2)
        | .cont c2 a2 cs2 =>
          if c2 = .Block then
            (postorderCont a (some k) (.cont c2 a2 cs2)).flatMap (postorderObjStep ct a ipb)
          else postorderCont a (some k) (.cont c2 a2 cs2)
      else []
    else []

/-- The name of an entry stored at key `k`: `prefix + name` when the
parent is the root block itself, otherwise `names[parent] + "." + name`
(`generate_names`, lines 520-528; the entry format `"%s"` renders the key
itself, the delimiter is `_child_storage_delimiter_string = "."`; for the
external container classes the spec gives the same fixed `"."` delimiter
and per-segment format, so they are modelled alike). -/
def segName (pfx : String) (pn : Option String) (k : String) : String :=
  match pn with
  | none => pfx ++ k
  | some p => p ++ "." ++ k

mutual
/-- Translation of the name-building loop of `_block_base.generate_names`
(lines 510-528) over the children of a block whose computed name is `pn`
(`none` for the root block itself): the loop walks exactly the entries
that `preorder_traversal(ctype, active, include_parent_blocks=True,
return_key=True)` yields after the root, and assigns each entry the name
`segName` of its key under its direct parent's name. -/
def genNamesKids (ct : Option Ctype) (a : Bool) (pfx : String)
    (pn : Option String) : List (String × Node) → List (Node × String)
  | [] => []
  | (k, ch) :: rest =>
    (if ct = none ∨ ct = some ch.ctype ∨ ch.ctype = .Block then
      if ¬a ∨ ch.activeDefault then
        match ch with
        | .leaf c2 a2 => [(Node.leaf c2 a2, segName pfx pn k)]
        | .blk a2 cs2 =>
          (Node.blk a2 cs2, segName pfx pn k)
            :: genNamesKids ct a pfx (some (segName pfx pn k)) cs2
        | .cont c2 a2 cs2 =>
          if c2 = .Block then
            genNamesContB ct a pfx (segName pfx pn k) (.cont c2 a2 cs2)
          else
            genNamesContO a (segName pfx pn k) (.cont c2 a2 cs2)
      else []
    else []) ++ genNamesKids ct a pfx pn rest
termination_by l => (Node.szL l, 1)
decreasing_by
  all_goals first
  | · exact Prod.Lex.left _ _ (by simp only [Node.sz, Node.szL]; omega)
  | · exact lex_of_le (by simp only [Node.szL]; omega)
  | · refine Prod.Lex.left _ _ ?_
      simp only [Node.szL]
      exact Nat.lt_add_of_pos_left (Node.sz_pos _)

/-- Names of the entries yielded for a child container of a non-`Block`
ctype: the container traversal yields the container and its members
without re-traversing component members. -/
def genNamesContO (a : Bool) (nm : String) : Node → List (Node × String)
  | .cont c2 actf cs =>
    if a ∧ ¬(Option.getD actf true) then []
    else (Node.cont c2 actf cs, nm) :: genNamesContOKids a nm cs
  | _ => []
termination_by n => (n.sz, 0)
decreasing_by
  exact Prod.Lex.left _ _ (by simp only [Node.sz, Node.szL]; omega)

def genNamesContOKids (a : Bool) (nm : String) :
    List (String × Node) → List (Node × String)
  | [] => []
  | (k, ch) :: rest =>
    (if ¬a ∨ ch.activeDefault then
      match ch with
      | .cont c2 a2 cs2 => genNamesContO a (nm ++ "." ++ k) (.cont c2 a2 cs2)
      | other => [(other, nm ++ "." ++ k)]
    else []) ++ genNamesContOKids a nm rest
termination_by l => (Node.szL l, 1)
decreasing_by
  all_goals first
  | · exact Prod.Lex.left _ _ (by simp only [Node.sz, Node.szL]; omega)
  | · exact lex_of_le (by simp only [Node.szL]; omega)
  | · refine Prod.Lex.left _ _ ?_
      simp only [Node.szL]
      exact Nat.lt_add_of_pos_left (Node.sz_pos _)

/-- Names of the entries yielded for a child container of ctype `Block`:
non-component entries (the container and nested containers) are named as
yielded; each component entry (a block) is re-traversed by the block
engine, so it is named and its children walked under its name. -/
def genNamesContB (ct : Option Ctype) (a : Bool) (pfx : String) (nm : String) :
    Node → List (Node × String)
  | .cont c2 actf cs =>
    if a ∧ ¬(Option.getD actf true) then []
    else (Node.cont c2 actf cs, nm) :: genNamesContBKids ct a pfx nm cs
  | _ => []
termination_by n => (n.sz, 0)
decreasing_by
  exact Prod.Lex.left _ _ (by simp only [Node.sz, Node.szL]; omega)

def genNamesContBKids (ct : Option Ctype) (a : Bool) (pfx : String) (nm : String) :
    List (String × Node) → List (Node × String)
  | [] => []
  | (k, ch) :: rest =>
    (if ¬a ∨ ch.activeDefault then
      match ch with
      | .cont c2 a2 cs2 => genNamesContB ct a pfx (nm ++ "." ++ k) (.cont c2 a2 cs2)
      | .leaf c2 a2 => [(Node.leaf c2 a2, nm ++ "." ++ k)]
      | .blk a2 cs2 =>
        (Node.blk a2 cs2, nm ++ "." ++ k)
          :: genNamesKids ct a pfx (some (nm ++ "." ++ k)) cs2
    else []) ++ genNamesContBKids ct a pfx nm rest
termination_by l => (Node.szL l, 1)
decreasing_by
  all_goals first
  | · exact Prod.Lex.left _ _ (by simp only [Node.sz, Node.szL]; omega)
  | · exact lex_of_le (by simp only [Node.szL]; omega)
  | · refine Prod.Lex.left _ _ ?_
      simp only [Node.szL]
      exact Nat.lt_add_of_pos_left (Node.sz_pos _)
end

/-- Translation of `_block_base.generate_names` (lines 466-530) with
`descend_into=True`: empty when `active=True` is requested and the block
is inactive (lines 507-508), otherwise the walk of the preorder traversal
with the root itself skipped (lines 510-528). -/
def genNames (ct : Option Ctype) (a : Bool) (pfx : String) : Node → List (Node × String)
  | .blk act cs => if a ∧ ¬act then [] else genNamesKids ct a pfx none cs
  | _ => []

/-- Modelled from the spec: `ComponentList/ComponentDict.components()`
(container code outside `src/`) applied to the member list — yields every
component stored under the container in declaration order, descending
through nested subcontainers; members that are themselves components
(leaf components, or blocks when this is a container of blocks) are
yielded without being entered, and the container applies no active
filtering of its own. -/
def contComponentsL : List (String × Node) → List Node
  | [] => []
  | (_, .cont _ _ cs2) :: rest => contComponentsL cs2 ++ contComponentsL rest
  | (_, m) :: rest => m :: contComponentsL rest
termination_by l => Node.szL l
decreasing_by
  all_goals simp only [Node.szL, Node.sz]
  all_goals try omega
  all_goals exact Nat.lt_add_of_pos_left (Node.sz_pos _)

theorem Node.szL_filter (cs : List (String × Node)) (p : String × Node → Bool) :
    Node.szL (cs.filter p) ≤ Node.szL cs := by
  induction cs with
  | nil => simp
  | cons hd tl ih =>
    obtain ⟨k, n⟩ := hd
    by_cases h : p (k, n)
    · rw [List.filter_cons_of_pos h]
      simp only [Node.szL]
      omega
    · rw [List.filter_cons_of_neg h]
      simp only [Node.szL]
      have := Node.sz_pos n
      omega

theorem contComponentsL_szN (N : Nat) :
    ∀ l : List (String × Node), Node.szL l ≤ N →
      ∀ m ∈ contComponentsL l, Node.sz m ≤ Node.szL l := by
  induction N with
  | zero =>
    intro l hl m hm
    cases l with
    | nil => simp [contComponentsL] at hm
    | cons hd tl =>
      obtain ⟨k, n⟩ := hd
      exfalso
      have := Node.sz_pos n
      simp only [Node.szL] at hl
      omega
  | succ N ih =>
    intro l hl m hm
    cases l with
    | nil => simp [contComponentsL] at hm
    | cons hd tl =>
      obtain ⟨k, n⟩ := hd
      cases n with
      | leaf c2 a2 =>
        simp only [contComponentsL] at hm
        rcases List.mem_cons.mp hm with hm1 | hm1
        · subst hm1
          simp only [Node.szL]
          omega
        · have h2 : Node.szL tl ≤ N := by
            have := Node.sz_pos (Node.leaf c2 a2)
            simp only [Node.szL] at hl ⊢
            omega
          have := ih tl h2 m hm1
          simp only [Node.szL]
          omega
      | blk a2 cs2 =>
        simp only [contComponentsL] at hm
        rcases List.mem_cons.mp hm with hm1 | hm1
        · subst hm1
          simp only [Node.szL]
          omega
        · have h2 : Node.szL tl ≤ N := by
            have := Node.sz_pos (Node.blk a2 cs2)
            simp only [Node.szL] at hl ⊢
            omega
          have := ih tl h2 m hm1
          simp only [Node.szL]
          omega
      | cont c2 a2 cs2 =>
        simp only [contComponentsL] at hm
        rcases List.mem_append.mp hm with hm1 | hm1
        · have h2 : Node.szL cs2 ≤ N := by
            simp only [Node.szL, Node.sz] at hl
            omega
          have := ih cs2 h2 m hm1
          simp only [Node.szL, Node.sz]
          omega
        · have h2 : Node.szL tl ≤ N := by
            have := Node.sz_pos (Node.cont c2 a2 cs2)
            simp only [Node.szL] at hl ⊢
            omega
          have := ih tl h2 m hm1
          simp only [Node.szL]
          omega

theorem contComponentsL_sz (l : List (String × Node)) :
    ∀ m ∈ contComponentsL l, Node.sz m ≤ Node.szL l :=
  contComponentsL_szN (Node.szL l) l (Nat.le_refl _)

/-- `children(ctype=...)` of a block over its child list: all children in
declaration order when no ctype was given, otherwise the ctype bucket,
i.e. the children of that ctype in declaration order (lines 588-612). -/
def childrenFilter (cs : List (String × Node)) : Option Ctype → List (String × Node)
  | none => cs
  | some c => cs.filter (fun p => p.2.ctype = c)

/-- The first loop of `_block_base.components` (lines 409-426): for each
child of the requested ctype that passes the active filter, a component
child is yielded itself; a (non-block) container child contributes its
`components()`, filtered member-by-member on the active flag exactly when
`active` was given and the container is an `_IActiveComponentContainer`
(modelled as: it carries an active flag). -/
def componentsOwn (ct : Option Ctype) (a : Bool) (cs : List (String × Node)) :
    List Node :=
  (childrenFilter cs ct).flatMap (fun p =>
    if ¬a ∨ p.2.activeDefault then
      match p.2 with
      | .cont _ a2 cs2 =>
        if a ∧ a2.isSome then
          (contComponentsL cs2).filter (fun m => m.activeDefault)
        else contComponentsL cs2
      | m => [m]
    else [])

mutual
/-- Translation of `_block_base.components` (lines 398-452): empty when
`active=True` was requested and the block is inactive (lines 406-407);
otherwise the direct loop over `children(ctype=ctype)` followed, when
`descend_into` holds, by the recursive loop over `children(ctype=Block)`. -/
def componentsM (ct : Option Ctype) (a d : Bool) : Node → List Node
  | .blk act cs =>
    if a ∧ ¬act then []
    else
      componentsOwn ct a cs
        ++ (if d then componentsDescend ct a d (childrenFilter cs (some .Block))
            else [])
  | _ => []
termination_by n => (n.sz, 0)
decreasing_by
  exact Prod.Lex.left _ _ (by
    simp only [Node.sz]
    have := Node.szL_filter cs (fun p => p.2.ctype = Ctype.Block)
    simp only [childrenFilter]
    omega)

/-- The `descend_into` loop of `_block_base.components` (lines 428-452):
for each child of ctype `Block` passing the active filter, a component
child (a sub-block) is recursed into with the same arguments; a container
child contributes, for each of its `components()` (each a block) passing
the active filter, that block's recursive `components`. -/
def componentsDescend (ct : Option Ctype) (a d : Bool) :
    List (String × Node) → List Node
  | [] => []
  | (_, ch) :: rest =>
    (if ¬a ∨ ch.activeDefault then
      match ch with
      | .cont _ _ cs2 =>
        (contComponentsL cs2).attach.flatMap (fun x =>
          if ¬a ∨ x.1.activeDefault then componentsM ct a d x.1 else [])
      | m => componentsM ct a d m
    else []) ++ componentsDescend ct a d rest
termination_by l => (Node.szL l, 1)
decreasing_by
  all_goals first
  | · refine lex_of_le ?_
      have h1 := contComponentsL_sz _ _ x.2
      simp only [Node.szL, Node.sz]
      omega
  | · exact lex_of_le (by simp only [Node.szL]; omega)
  | · refine Prod.Lex.left _ _ ?_
      simp only [Node.szL]
      exact Nat.lt_add_of_pos_left (Node.sz_pos _)
end

/-- Translation of `_block_base.blocks` (lines 453-464): when `active` is
unset or the block is active, the block itself followed by its
`components(ctype=Block, active=active, descend_into=descend_into)`. -/
def blocksM (a d : Bool) : Node → List Node
  | .blk act cs =>
    if ¬a ∨ act then
      Node.blk act cs :: componentsM (some .Block) a d (.blk act cs)
    else []
  | _ => []

/-- Translation of the `descend_into=False` branch of
`block.collect_ctypes` (lines 692-703), with the `__byctype` key set
realised as the distinct ctypes of the children in first-declaration
order: with `active` unset, the keys themselves; with `active=True`, the
keys for which `components(ctype=key, active=True, descend_into=False)`
yields at least one component. -/
def collectCtypesND (a : Bool) : Node → List Ctype
  | .blk act cs =>
    if ¬a then (cs.map (fun p => p.2.ctype)).dedup
    else
      ((cs.map (fun p => p.2.ctype)).dedup).filter
        (fun c => ¬(componentsM (some c) true false (.blk act cs)).isEmpty)
  | _ => []

/-- Translation of `block.collect_ctypes` with `descend_into=True`
(lines 704-710): the union, over the blocks of
`blocks(active=active, descend_into=True)`, of each block's
`collect_ctypes(active=active, descend_into=False)`. -/
def collectCtypes (a : Bool) (n : Node) : List Ctype :=
  ((blocksM a true n).flatMap (collectCtypesND a)).dedup

mutual
/-- Well-formedness of a tree, the implicit typing discipline of the
source's class hierarchy: no leaf component carries ctype `Block` (a
component of ctype `Block` is a block and holds children); a container is
homogeneous (every member has the container's ctype); a container of
blocks carries an active flag (`block_list`/`block_dict` store `_active`,
lines 716-756); and a container without an active flag holds only members
without one, matching the source's containers, whose
`_IActiveComponentContainer` subclasses are exactly those holding
components with active flags. -/
def Node.wf : Node → Bool
  | .leaf c _ => decide (c ≠ Ctype.Block)
  | .blk _ cs => Node.wfL cs
  | .cont c fl cs =>
    cs.all (fun p => decide (p.2.ctype = c))
      && (!(decide (c = Ctype.Block)) || fl.isSome)
      && (!fl.isNone || cs.all (fun p => p.2.activeFlag.isNone))
      && Node.wfL cs
termination_by n => (n.sz, 0)
decreasing_by
  all_goals exact Prod.Lex.left _ _ (by simp only [Node.sz]; omega)

def Node.wfL : List (String × Node) → Bool
  | [] => true
  | (_, m) :: rest => Node.wf m && Node.wfL rest
termination_by l => (Node.szL l, 1)
decreasing_by
  all_goals first
  | · exact lex_of_le (by simp only [Node.szL]; omega)
  | · refine Prod.Lex.left _ _ ?_
      simp only [Node.szL]
      exact Nat.lt_add_of_pos_left (Node.sz_pos _)
end

mutual
/-- No container in the tree is effectively empty: every container node
holds at least one component (possibly through nested subcontainers). -/
def Node.filled : Node → Bool
  | .leaf _ _ => true
  | .blk _ cs => Node.filledL cs
  | .cont _ _ cs => (!(contComponentsL cs).isEmpty) && Node.filledL cs
termination_by n => (n.sz, 0)
decreasing_by
  all_goals exact Prod.Lex.left _ _ (by simp only [Node.sz]; omega)

def Node.filledL : List (String × Node) → Bool
  | [] => true
  | (_, m) :: rest => Node.filled m && Node.filledL rest
termination_by l => (Node.szL l, 1)
decreasing_by
  all_goals first
  | · exact lex_of_le (by simp only [Node.szL]; omega)
  | · refine Prod.Lex.left _ _ ?_
      simp only [Node.szL]
      exact Nat.lt_add_of_pos_left (Node.sz_pos _)
end

/-- The value passed for the `active` argument of a traversal or query:
Python `None` (the default, "unset"), `True`, `False`, or any other
object. -/
inductive PyActive where
  | unset
  | ptrue
  | pfalse
  | pother (v : Nat)
deriving DecidableEq

/-- The check `active in (None, True)` asserted by every traversal and
query operation (lines 229, 331, 402, 456, 503, 690). -/
def activeArgOK : PyActive → Bool
  | .unset => true
  | .ptrue => true
  | _ => false

/-- The filter state a valid `active` argument induces in the embedding:
`True` filters, `None` does not. -/
def activeBool : PyActive → Bool
  | .ptrue => true
  | _ => false

/-- The error the spec names for a rejected `active` argument. -/
inductive PyErr where
  | invalidFilter
deriving DecidableEq

/-- Which of the four generator-based operations was called. -/
inductive GenOp where
  | preorderOp
  | postorderOp
  | componentsOp
  | blocksOp
deriving DecidableEq

/-- A suspended generator: `preorder_traversal`, `postorder_traversal`,
`components` and `blocks` are Python generator functions, so a call runs
none of the body and merely captures the arguments. -/
structure TraversalGen where
  op : GenOp
  ct : Option Ctype
  act : PyActive
  ipb : Bool
  d : Bool
  root : Node

/-- Calling one of the four generator operations (lines 194-294, 296-396,
398-452, 453-464): the `assert active in (None, True)` sits inside the
generator body, so the call itself always succeeds, whatever `active`
holds. -/
def generatorCall (op : GenOp) (ct : Option Ctype) (act : PyActive)
    (ipb d : Bool) (n : Node) : Except PyErr TraversalGen :=
  .ok ⟨op, ct, act, ipb, d, n⟩

/-- Advancing the returned generator for the first time runs the body up
to the `assert`: an invalid `active` raises there; a valid one produces
the documented sequence. -/
def generatorRun (g : TraversalGen) : Except PyErr (List Node) :=
  if activeArgOK g.act then
    .ok (match g.op with
      | .preorderOp =>
        (preorder g.ct (activeBool g.act) g.ipb none g.root).map Prod.snd
      | .postorderOp =>
        (postorder g.ct (activeBool g.act) g.ipb none g.root).map Prod.snd
      | .componentsOp => componentsM g.ct (activeBool g.act) g.d g.root
      | .blocksOp => blocksM (activeBool g.act) g.d g.root)
  else .error .invalidFilter

/-- Calling `generate_names` (lines 466-530): a plain function, so the
`assert active in (None, True)` at line 503 runs at the point of the
call. -/
def generateNamesCall (ct : Option Ctype) (act : PyActive) (pfx : String)
    (n : Node) : Except PyErr (List (Node × String)) :=
  if activeArgOK act then .ok (genNames ct (activeBool act) pfx n)
  else .error .invalidFilter

/-- Calling `collect_ctypes` (lines 669-710): a plain function, so the
`assert active in (None, True)` at line 690 runs at the point of the
call. -/
def collectCtypesCall (act : PyActive) (d : Bool) (n : Node) :
    Except PyErr (List Ctype) :=
  if activeArgOK act then
    .ok (if d then collectCtypes (activeBool act) n
      else collectCtypesND (activeBool act) n)
  else .error .invalidFilter

/-- Well-formedness of a dynamic block state: the `__dict__` mirrors
`__order` (every named slot holds its component), keys and entity
identities are unambiguous, the ctype buckets partition exactly the order
index (no empty bucket survives), and every indexed child's parent
reference points back at this block. -/
def WF (st : BlockState) : Prop :=
  st.dict = st.order.map (fun p => (p.1, AttrVal.comp p.2))
  ∧ (st.order.map Prod.fst).Nodup
  ∧ (st.order.map (fun p => p.2.eid)).Nodup
  ∧ (st.byctype.map Prod.fst).Nodup
  ∧ (st.parent.map Prod.fst).Nodup
  ∧ (∀ p ∈ st.byctype,
      p.2 ≠ [] ∧ (p.2.map Prod.fst).Nodup ∧ ∀ q ∈ p.2, q ∈ st.order ∧ q.2.ct = p.1)
  ∧ (∀ q ∈ st.order, q ∈ bucketOf st.byctype q.2.ct)
  ∧ (∀ q ∈ st.order, odLookup st.parent q.2.eid = some st.bid)

instance (st : BlockState) : Decidable (WF st) := by
  unfold WF
  exact inferInstance

/-! ## Lemmas about the ordered association list primitives -/

section AssocLemmas

variable {κ α : Type} [DecidableEq κ]

@[simp]
theorem odLookup_nil (k : κ) : odLookup ([] : List (κ × α)) k = none := rfl

@[simp]
theorem odLookup_cons (k0 : κ) (v : α) (rest : List (κ × α)) (k : κ) :
    odLookup ((k0, v) :: rest) k = if k0 = k then some v else odLookup rest k := rfl

theorem odLookup_eq_none_iff {l : List (κ × α)} {k : κ} :
    odLookup l k = none ↔ k ∉ l.map Prod.fst := by
  induction l with
  | nil => simp
  | cons hd tl ih =>
    obtain ⟨k0, v0⟩ := hd
    by_cases h : k0 = k
    · subst h
      simp
    · simp only [odLookup_cons, if_neg h, List.map_cons, List.mem_cons, ih, not_or]
      constructor
      · intro hk
        exact ⟨fun hh => h hh.symm, hk⟩
      · intro hk
        exact hk.2

theorem odLookup_mem {l : List (κ × α)} {k : κ} {v : α}
    (h : odLookup l k = some v) : (k, v) ∈ l := by
  induction l with
  | nil => simp at h
  | cons hd tl ih =>
    obtain ⟨k0, v0⟩ := hd
    by_cases hk : k0 = k
    · subst hk
      simp at h
      simp [h]
    · simp [hk] at h
      exact List.mem_cons_of_mem _ (ih h)

theorem mem_odLookup {l : List (κ × α)} {k : κ} {v : α}
    (hnd : (l.map Prod.fst).Nodup) (h : (k, v) ∈ l) : odLookup l k = some v := by
  induction l with
  | nil => simp at h
  | cons hd tl ih =>
    obtain ⟨k0, v0⟩ := hd
    simp only [List.map_cons, List.nodup_cons] at hnd
    rcases List.mem_cons.mp h with h | h
    · obtain ⟨h1, h2⟩ := Prod.mk.injEq .. ▸ h
      simp [h1.symm, h2]
    · have hk : k0 ≠ k := by
        rintro rfl
        exact hnd.1 (List.mem_map.mpr ⟨(k0, v), h, rfl⟩)
      simp [hk]
      exact ih hnd.2 h

theorem odLookup_isSome_iff {l : List (κ × α)} {k : κ} :
    (odLookup l k).isSome = true ↔ k ∈ l.map Prod.fst := by
  cases h : odLookup l k with
  | none =>
    simp [odLookup_eq_none_iff.mp h]
  | some v =>
    simp only [Option.isSome_some, true_iff]
    exact List.mem_map.mpr ⟨(k, v), odLookup_mem h, rfl⟩

@[simp]
theorem odLookup_odInsert_self (l : List (κ × α)) (k : κ) (v : α) :
    odLookup (odInsert l k v) k = some v := by
  induction l with
  | nil => simp [odInsert]
  | cons hd tl ih =>
    obtain ⟨k0, v0⟩ := hd
    by_cases h : k0 = k <;> simp [odInsert, h, ih]

theorem odLookup_odInsert_ne (l : List (κ × α)) {k k' : κ} (v : α) (h : k ≠ k') :
    odLookup (odInsert l k v) k' = odLookup l k' := by
  induction l with
  | nil => simp [odInsert, h]
  | cons hd tl ih =>
    obtain ⟨k0, v0⟩ := hd
    by_cases hk : k0 = k
    · subst hk
      simp [odInsert, h]
    · simp only [odInsert, hk, if_false]
      by_cases hk' : k0 = k' <;> simp [hk', ih]

theorem odInsert_self {l : List (κ × α)} {k : κ} {v : α}
    (h : odLookup l k = some v) : odInsert l k v = l := by
  induction l with
  | nil => simp at h
  | cons hd tl ih =>
    obtain ⟨k0, v0⟩ := hd
    by_cases hk : k0 = k
    · subst hk
      simp at h
      simp [odInsert, h]
    · simp [hk] at h
      simp [odInsert, hk, ih h]

theorem odInsert_of_not_mem {l : List (κ × α)} {k : κ} (v : α)
    (h : odLookup l k = none) : odInsert l k v = l ++ [(k, v)] := by
  induction l with
  | nil => simp [odInsert]
  | cons hd tl ih =>
    obtain ⟨k0, v0⟩ := hd
    by_cases hk : k0 = k
    · simp [hk] at h
    · simp [hk] at h
      simp [odInsert, hk, ih h]

theorem odInsert_keys_of_mem {l : List (κ × α)} {k : κ} (v : α)
    (h : k ∈ l.map Prod.fst) : (odInsert l k v).map Prod.fst = l.map Prod.fst := by
  induction l with
  | nil => simp at h
  | cons hd tl ih =>
    obtain ⟨k0, v0⟩ := hd
    by_cases hk : k0 = k
    · simp [odInsert, hk]
    · simp only [List.map_cons, List.mem_cons] at h
      rcases h with h1 | h1
      · exact absurd h1.symm hk
      · simp [odInsert, hk, ih h1]

theorem odErase_sublist (l : List (κ × α)) (k : κ) : (odErase l k).Sublist l := by
  induction l with
  | nil => simp [odErase]
  | cons hd tl ih =>
    obtain ⟨k0, v0⟩ := hd
    by_cases hk : k0 = k
    · simp [odErase, hk]
    · simpa [odErase, hk] using ih.cons₂ (k0, v0)

theorem odErase_of_none {l : List (κ × α)} {k : κ}
    (h : odLookup l k = none) : odErase l k = l := by
  induction l with
  | nil => simp [odErase]
  | cons hd tl ih =>
    obtain ⟨k0, v0⟩ := hd
    by_cases hk : k0 = k
    · simp [hk] at h
    · simp [hk] at h
      simp [odErase, hk, ih h]

theorem odLookup_append_right {l1 l2 : List (κ × α)} {k : κ}
    (h : odLookup l1 k = none) : odLookup (l1 ++ l2) k = odLookup l2 k := by
  induction l1 with
  | nil => simp
  | cons hd tl ih =>
    obtain ⟨k0, v0⟩ := hd
    by_cases hk : k0 = k
    · simp [hk] at h
    · simp [hk] at h
      simp [hk, ih h]

theorem odLookup_append_left {l1 l2 : List (κ × α)} {k : κ} {v : α}
    (h : odLookup l1 k = some v) : odLookup (l1 ++ l2) k = some v := by
  induction l1 with
  | nil => simp at h
  | cons hd tl ih =>
    obtain ⟨k0, v0⟩ := hd
    by_cases hk : k0 = k
    · simp [hk] at h
      simp [hk, h]
    · simp [hk] at h
      simp [hk, ih h]

theorem mem_odInsert_iff {l : List (κ × α)} {k : κ} {v : α} {p : κ × α}
    (hnd : (l.map Prod.fst).Nodup) :
    p ∈ odInsert l k v ↔ p = (k, v) ∨ (p ∈ l ∧ p.1 ≠ k) := by
  induction l with
  | nil => simp [odInsert]
  | cons hd tl ih =>
    obtain ⟨k0, v0⟩ := hd
    simp only [List.map_cons, List.nodup_cons] at hnd
    by_cases hk : k0 = k
    · subst hk
      have hins : odInsert ((k0, v0) :: tl) k0 v = (k0, v) :: tl := by
        simp [odInsert]
      rw [hins]
      constructor
      · intro hp
        rcases List.mem_cons.mp hp with rfl | hp
        · exact Or.inl rfl
        · have hne : p.1 ≠ k0 := by
            intro h1
            exact hnd.1 (List.mem_map.mpr ⟨p, hp, h1⟩)
          exact Or.inr ⟨List.mem_cons_of_mem _ hp, hne⟩
      · intro hp
        rcases hp with rfl | ⟨hp, hne⟩
        · exact List.mem_cons_self _ _
        · rcases List.mem_cons.mp hp with rfl | hp
          · exact absurd rfl hne
          · exact List.mem_cons_of_mem _ hp
    · have hins : odInsert ((k0, v0) :: tl) k v = (k0, v0) :: odInsert tl k v := by
        simp [odInsert, hk]
      rw [hins]
      constructor
      · intro hp
        rcases List.mem_cons.mp hp with rfl | hp
        · exact Or.inr ⟨List.mem_cons_self _ _, hk⟩
        · rcases (ih hnd.2).mp hp with rfl | ⟨hp2, hne⟩
          · exact Or.inl rfl
          · exact Or.inr ⟨List.mem_cons_of_mem _ hp2, hne⟩
      · intro hp
        rcases hp with rfl | ⟨hp, hne⟩
        · exact List.mem_cons_of_mem _ ((ih hnd.2).mpr (Or.inl rfl))
        · rcases List.mem_cons.mp hp with rfl | hp
          · exact List.mem_cons_self _ _
          · exact List.mem_cons_of_mem _ ((ih hnd.2).mpr (Or.inr ⟨hp, hne⟩))

theorem lookup_unique {l : List (κ × α)} {k : κ} {a b : α}
    (hnd : (l.map Prod.fst).Nodup) (h1 : (k, a) ∈ l) (h2 : (k, b) ∈ l) : a = b := by
  have e1 := mem_odLookup hnd h1
  have e2 := mem_odLookup hnd h2
  rw [e1] at e2
  exact (Option.some.injEq .. ▸ e2)

theorem odLookup_map_snd {β : Type} (g : α → β) (l : List (κ × α)) (k : κ) :
    odLookup (l.map (fun p => (p.1, g p.2))) k = (odLookup l k).map g := by
  induction l with
  | nil => simp
  | cons hd tl ih =>
    obtain ⟨k0, v0⟩ := hd
    by_cases hk : k0 = k <;> simp [hk, ih]

theorem odErase_map_snd {β : Type} (g : α → β) (l : List (κ × α)) (k : κ) :
    odErase (l.map (fun p => (p.1, g p.2))) k
      = (odErase l k).map (fun p => (p.1, g p.2)) := by
  induction l with
  | nil => simp [odErase]
  | cons hd tl ih =>
    obtain ⟨k0, v0⟩ := hd
    by_cases hk : k0 = k <;> simp [odErase, hk, ih]

theorem odInsert_map_snd {β : Type} (g : α → β) (l : List (κ × α)) (k : κ) (v : α) :
    odInsert (l.map (fun p => (p.1, g p.2))) k (g v)
      = (odInsert l k v).map (fun p => (p.1, g p.2)) := by
  induction l with
  | nil => simp [odInsert]
  | cons hd tl ih =>
    obtain ⟨k0, v0⟩ := hd
    by_cases hk : k0 = k <;> simp [odInsert, hk, ih]

theorem odErase_keys_sublist (l : List (κ × α)) (k : κ) :
    ((odErase l k).map Prod.fst).Sublist (l.map Prod.fst) :=
  (odErase_sublist l k).map Prod.fst

theorem mem_odErase_of_mem_of_ne {l : List (κ × α)} {k : κ} {q : κ × α}
    (hq : q ∈ l) (hne : q.1 ≠ k) : q ∈ odErase l k := by
  induction l with
  | nil => simp at hq
  | cons hd tl ih =>
    obtain ⟨k0, v0⟩ := hd
    rcases List.mem_cons.mp hq with h | h
    · subst h
      simp [odErase, hne]
    · by_cases hk : k0 = k
      · simpa [odErase, hk] using h
      · simpa [odErase, hk] using Or.inr (ih h)

theorem mem_of_mem_odErase {l : List (κ × α)} {k : κ} {q : κ × α}
    (hq : q ∈ odErase l k) : q ∈ l :=
  (odErase_sublist l k).mem hq

theorem ne_of_mem_odErase {l : List (κ × α)} {k : κ} {q : κ × α}
    (hnd : (l.map Prod.fst).Nodup) (hq : q ∈ odErase l k) : q.1 = k → False := by
  induction l with
  | nil => simp [odErase] at hq
  | cons hd tl ih =>
    obtain ⟨k0, v0⟩ := hd
    simp only [List.map_cons, List.nodup_cons] at hnd
    by_cases hk : k0 = k
    · subst hk
      simp only [odErase, if_pos rfl] at hq
      intro h
      exact hnd.1 (List.mem_map.mpr ⟨q, hq, h⟩)
    · simp only [odErase, hk, if_false] at hq
      rcases List.mem_cons.mp hq with h | h
      · subst h
        intro h
        exact hk h
      · exact ih hnd.2 h

theorem odLookup_odErase_self {l : List (κ × α)} {k : κ}
    (hnd : (l.map Prod.fst).Nodup) : odLookup (odErase l k) k = none := by
  rw [odLookup_eq_none_iff]
  intro hmem
  obtain ⟨q, hq, hq1⟩ := List.mem_map.mp hmem
  exact ne_of_mem_odErase hnd hq hq1

theorem odLookup_odErase_ne (l : List (κ × α)) {k k' : κ} (h : k ≠ k') :
    odLookup (odErase l k) k' = odLookup l k' := by
  induction l with
  | nil => simp [odErase]
  | cons hd tl ih =>
    obtain ⟨k0, v0⟩ := hd
    by_cases hk : k0 = k
    · have hk0 : ¬(k0 = k') := fun hh => h (hk.symm.trans hh)
      simp [odErase, hk, hk0, h]
    · simp only [odErase, hk, if_false]
      by_cases hk' : k0 = k' <;> simp [hk', ih]

theorem odErase_append_of_none {l : List (κ × α)} {k : κ} (v : α)
    (h : odLookup l k = none) : odErase (l ++ [(k, v)]) k = l := by
  induction l with
  | nil => simp [odErase]
  | cons hd tl ih =>
    obtain ⟨k0, v0⟩ := hd
    by_cases hk : k0 = k
    · simp [hk] at h
    · simp [hk] at h
      simp [odErase, hk, ih h]

end AssocLemmas

/-! ## Lemmas about the `__byctype` bucket operations -/

theorem bucketOf_bucketInsert_self (b : List (Ctype × List (String × Entity)))
    (c : Ctype) (k : String) (e : Entity)
    (hk : odLookup (bucketOf b c) k = none) :
    bucketOf (bucketInsert b c k e) c = bucketOf b c ++ [(k, e)] := by
  cases h : odLookup b c with
  | some bl =>
    have hb : bucketOf b c = bl := by simp [bucketOf, h]
    rw [hb] at hk ⊢
    simp [bucketInsert, h, bucketOf, odInsert_of_not_mem e hk]
  | none =>
    have hb : bucketOf b c = [] := by simp [bucketOf, h]
    rw [hb]
    simp [bucketInsert, h, bucketOf, odLookup_append_right h]

theorem bucketOf_bucketInsert_ne (b : List (Ctype × List (String × Entity)))
    {c c' : Ctype} (k : String) (e : Entity) (hne : c ≠ c') :
    bucketOf (bucketInsert b c k e) c' = bucketOf b c' := by
  cases h : odLookup b c with
  | some bl =>
    simp [bucketInsert, h, bucketOf, odLookup_odInsert_ne _ _ hne]
  | none =>
    cases h' : odLookup b c' with
    | some bl' =>
      simp [bucketInsert, h, bucketOf, odLookup_append_left h', h']
    | none =>
      simp [bucketInsert, h, bucketOf, odLookup_append_right h', h', hne]

theorem bucketOf_bucketErase_self {b : List (Ctype × List (String × Entity))}
    (c : Ctype) (k : String) (hnd : (b.map Prod.fst).Nodup) :
    bucketOf (bucketErase b c k) c = odErase (bucketOf b c) k := by
  cases h : odLookup b c with
  | some bl =>
    have hb : bucketOf b c = bl := by simp [bucketOf, h]
    rw [hb]
    by_cases he : odErase bl k = []
    · simp [bucketErase, h, he, bucketOf, odLookup_odErase_self hnd]
    · simp [bucketErase, h, he, bucketOf]
  | none =>
    have hb : bucketOf b c = [] := by simp [bucketOf, h]
    simp [bucketErase, h, hb, odErase]

theorem bucketOf_bucketErase_ne (b : List (Ctype × List (String × Entity)))
    {c c' : Ctype} (k : String) (hne : c ≠ c') :
    bucketOf (bucketErase b c k) c' = bucketOf b c' := by
  cases h : odLookup b c with
  | some bl =>
    by_cases he : odErase bl k = []
    · simp [bucketErase, h, he, bucketOf, odLookup_odErase_ne _ hne]
    · simp [bucketErase, h, he, bucketOf, odLookup_odInsert_ne _ _ hne]
  | none =>
    simp [bucketErase, h]

theorem mem_bucketErase {b : List (Ctype × List (String × Entity))}
    {c : Ctype} {k : String} {p : Ctype × List (String × Entity)}
    (hnd : (b.map Prod.fst).Nodup) (hp : p ∈ bucketErase b c k) :
    (p.1 = c ∧ p.2 = odErase (bucketOf b c) k ∧ odErase (bucketOf b c) k ≠ [])
      ∨ (p ∈ b ∧ p.1 ≠ c) := by
  cases h : odLookup b c with
  | some bl =>
    have hb : bucketOf b c = bl := by simp [bucketOf, h]
    simp only [bucketErase, h] at hp
    by_cases he : odErase bl k = []
    · rw [if_pos he] at hp
      exact Or.inr ⟨mem_of_mem_odErase hp, fun hc => ne_of_mem_odErase hnd hp hc⟩
    · rw [if_neg he] at hp
      rcases (mem_odInsert_iff hnd).mp hp with rfl | ⟨hp2, hne⟩
      · exact Or.inl ⟨rfl, by rw [hb], by rw [hb]; exact he⟩
      · exact Or.inr ⟨hp2, hne⟩
  | none =>
    simp only [bucketErase, h] at hp
    refine Or.inr ⟨hp, fun hc => ?_⟩
    rw [odLookup_eq_none_iff] at h
    exact h (List.mem_map.mpr ⟨p, hp, hc⟩)

theorem mem_bucketInsert {b : List (Ctype × List (String × Entity))}
    {c : Ctype} {k : String} {e : Entity} {p : Ctype × List (String × Entity)}
    (hnd : (b.map Prod.fst).Nodup) (hp : p ∈ bucketInsert b c k e) :
    (p.1 = c ∧ p.2 = odInsert (bucketOf b c) k e) ∨ (p ∈ b ∧ p.1 ≠ c) := by
  cases h : odLookup b c with
  | some bl =>
    have hb : bucketOf b c = bl := by simp [bucketOf, h]
    simp only [bucketInsert, h] at hp
    rcases (mem_odInsert_iff hnd).mp hp with rfl | ⟨hp2, hne⟩
    · exact Or.inl ⟨rfl, by rw [hb]⟩
    · exact Or.inr ⟨hp2, hne⟩
  | none =>
    have hb : bucketOf b c = [] := by simp [bucketOf, h]
    simp only [bucketInsert, h] at hp
    rcases List.mem_append.mp hp with hp2 | hp2
    · refine Or.inr ⟨hp2, fun hc => ?_⟩
      rw [odLookup_eq_none_iff] at h
      exact h (List.mem_map.mpr ⟨p, hp2, hc⟩)
    · rcases List.mem_singleton.mp hp2 with rfl
      exact Or.inl ⟨rfl, by rw [hb]; rfl⟩

theorem bucketInsert_keys_nodup {b : List (Ctype × List (String × Entity))}
    (c : Ctype) (k : String) (e : Entity) (hnd : (b.map Prod.fst).Nodup) :
    ((bucketInsert b c k e).map Prod.fst).Nodup := by
  cases h : odLookup b c with
  | some bl =>
    simp only [bucketInsert, h]
    rw [odInsert_keys_of_mem _ (odLookup_isSome_iff.mp (by simp [h]))]
    exact hnd
  | none =>
    simp only [bucketInsert, h]
    rw [List.map_append]
    simp only [List.map_cons, List.map_nil]
    rw [List.nodup_append]
    refine ⟨hnd, List.nodup_singleton c, ?_⟩
    intro x hx
    simp only [List.mem_singleton]
    rintro rfl
    exact (odLookup_eq_none_iff.mp h) hx

theorem bucketErase_keys_nodup {b : List (Ctype × List (String × Entity))}
    (c : Ctype) (k : String) (hnd : (b.map Prod.fst).Nodup) :
    ((bucketErase b c k).map Prod.fst).Nodup := by
  cases h : odLookup b c with
  | some bl =>
    by_cases he : odErase bl k = []
    · simp only [bucketErase, h, if_pos he]
      exact hnd.sublist (odErase_keys_sublist b c)
    · simp only [bucketErase, h, if_neg he]
      rw [odInsert_keys_of_mem _ (odLookup_isSome_iff.mp (by simp [h]))]
      exact hnd
  | none =>
    simp only [bucketErase, h]
    exact hnd

/-! ## Preservation of the block-state invariant -/

theorem WF_dict_lookup {st : BlockState} (hwf : WF st) (n : String) :
    odLookup st.dict n = (odLookup st.order n).map AttrVal.comp := by
  rw [hwf.1]
  exact odLookup_map_snd _ _ _

theorem WF_dict_keys {st : BlockState} (hwf : WF st) :
    st.dict.map Prod.fst = st.order.map Prod.fst := by
  rw [hwf.1, List.map_map]
  rfl

theorem WF_order_unique {st : BlockState} (hwf : WF st)
    {q q' : String × Entity} (hq : q ∈ st.order) (hq' : q' ∈ st.order)
    (he : q.2.eid = q'.2.eid) : q = q' :=
  List.inj_on_of_nodup_map hwf.2.2.1 hq hq' he

theorem WF_delattrCore {st : BlockState} (n : String) (hwf : WF st) :
    WF (delattrCore st n) := by
  obtain ⟨h1, h2, h3, h4, h5, h6, h7, h8⟩ := hwf
  have hwf' : WF st := ⟨h1, h2, h3, h4, h5, h6, h7, h8⟩
  cases hd : odLookup st.dict n with
  | none =>
    have : delattrCore st n = st := by
      simp [delattrCore, hd, odErase_of_none hd]
    rw [this]
    exact hwf'
  | some v =>
    cases v with
    | plain w =>
      rw [WF_dict_lookup hwf' n] at hd
      cases ho : odLookup st.order n <;> simp [ho] at hd
    | comp e =>
      have horder : odLookup st.order n = some e := by
        rw [WF_dict_lookup hwf' n] at hd
        cases ho : odLookup st.order n with
        | none => simp [ho] at hd
        | some e2 =>
          simp [ho] at hd
          simp [hd]
      have hmem : (n, e) ∈ st.order := odLookup_mem horder
      have hbuck : (n, e) ∈ bucketOf st.byctype e.ct := h7 (n, e) hmem
      simp only [delattrCore, hd]
      refine ⟨?_, ?_, ?_, ?_, ?_, ?_, ?_, ?_⟩
      · rw [h1]
        exact odErase_map_snd _ _ _
      · exact h2.sublist (odErase_keys_sublist _ _)
      · exact h3.sublist ((odErase_sublist _ _).map _)
      · exact bucketErase_keys_nodup _ _ h4
      · exact h5.sublist (odErase_keys_sublist _ _)
      · intro p hp
        rcases mem_bucketErase h4 hp with ⟨hpc, hpv, hpne⟩ | ⟨hpb, hpne⟩
        · obtain ⟨bl, hble⟩ : ∃ bl, odLookup st.byctype e.ct = some bl := by
            cases hbl : odLookup st.byctype e.ct with
            | none =>
              rw [bucketOf, hbl] at hbuck
              simp at hbuck
            | some bl => exact ⟨bl, rfl⟩
          have hblv : bucketOf st.byctype e.ct = bl := by simp [bucketOf, hble]
          obtain ⟨hne0, hnd0, hq0⟩ := h6 (e.ct, bl) (odLookup_mem hble)
          refine ⟨by rw [hpv]; exact hpne, ?_, ?_⟩
          · rw [hpv, hblv]
            exact hnd0.sublist (odErase_keys_sublist _ _)
          · intro q hq
            rw [hpv, hblv] at hq
            have hqbl : q ∈ bl := mem_of_mem_odErase hq
            have hqn : q.1 ≠ n := fun hc => ne_of_mem_odErase hnd0 hq hc
            obtain ⟨hqo, hqc⟩ := hq0 q hqbl
            exact ⟨mem_odErase_of_mem_of_ne hqo hqn, by rw [hqc, hpc]⟩
        · obtain ⟨hne0, hnd0, hq0⟩ := h6 p hpb
          refine ⟨hne0, hnd0, ?_⟩
          intro q hq
          obtain ⟨hqo, hqc⟩ := hq0 q hq
          have hqn : q.1 ≠ n := by
            intro hc
            have hq' : (n, q.2) ∈ st.order := by
              rw [← hc]
              exact hqo
            have : q.2 = e := lookup_unique h2 hq' hmem
            rw [this] at hqc
            exact hpne (hqc.symm ▸ rfl)
          exact ⟨mem_odErase_of_mem_of_ne hqo hqn, hqc⟩
      · intro q hq
        have hqo : q ∈ st.order := mem_of_mem_odErase hq
        have hqn : q.1 ≠ n := fun hc => ne_of_mem_odErase h2 hq hc
        have hqb := h7 q hqo
        by_cases hc : q.2.ct = e.ct
        · rw [hc, bucketOf_bucketErase_self _ _ h4]
          rw [hc] at hqb
          exact mem_odErase_of_mem_of_ne hqb hqn
        · rw [bucketOf_bucketErase_ne _ _ (fun hcc => hc hcc.symm)]
          exact hqb
      · intro q hq
        have hqo : q ∈ st.order := mem_of_mem_odErase hq
        have hqn : q.1 ≠ n := fun hc => ne_of_mem_odErase h2 hq hc
        have hqe : e.eid ≠ q.2.eid := by
          intro hc
          have : (n, e) = q := WF_order_unique hwf' hmem hqo hc
          rw [← this] at hqn
          exact hqn rfl
        rw [odLookup_odErase_ne _ hqe]
        exact h8 q hqo

theorem delattrCore_dict_eq (st : BlockState) (n : String) :
    (delattrCore st n).dict = odErase st.dict n := by
  unfold delattrCore
  cases odLookup st.dict n with
  | none => rfl
  | some v => cases v <;> rfl

theorem delattrCore_parent_sub (st : BlockState) (n : String) :
    ((delattrCore st n).parent).Sublist st.parent := by
  unfold delattrCore
  cases odLookup st.dict n with
  | none => exact List.Sublist.refl _
  | some v =>
    cases v with
    | comp e => exact odErase_sublist _ _
    | plain w => exact List.Sublist.refl _

theorem delattrCore_bid (st : BlockState) (n : String) :
    (delattrCore st n).bid = st.bid := by
  unfold delattrCore
  cases odLookup st.dict n with
  | none => rfl
  | some v => cases v <;> rfl

theorem nodup_append_single {β : Type} {l : List β} {x : β}
    (h : l.Nodup) (hx : x ∉ l) : (l ++ [x]).Nodup := by
  rw [List.nodup_append]
  refine ⟨h, List.nodup_singleton x, ?_⟩
  intro a ha hax
  rw [List.mem_singleton] at hax
  subst hax
  exact hx ha

theorem WF_bucketOf_mem {st : BlockState} (hwf : WF st) {c : Ctype}
    {q : String × Entity} (hq : q ∈ bucketOf st.byctype c) :
    q ∈ st.order ∧ q.2.ct = c := by
  cases hbl : odLookup st.byctype c with
  | none =>
    rw [bucketOf, hbl] at hq
    simp at hq
  | some bl =>
    rw [bucketOf, hbl] at hq
    exact (hwf.2.2.2.2.2.1 (c, bl) (odLookup_mem hbl)).2.2 q hq

theorem WF_bucket_keys_nodup {st : BlockState} (hwf : WF st) (c : Ctype) :
    ((bucketOf st.byctype c).map Prod.fst).Nodup := by
  cases hbl : odLookup st.byctype c with
  | none =>
    rw [bucketOf, hbl]
    simp
  | some bl =>
    rw [bucketOf, hbl]
    exact (hwf.2.2.2.2.2.1 (c, bl) (odLookup_mem hbl)).2.1

theorem WF_attach_core {st1 : BlockState} {n : String} {e : Entity}
    (hwf1 : WF st1) (hd1 : odLookup st1.dict n = none)
    (hp1 : odLookup st1.parent e.eid = none) :
    WF { st1 with
          byctype := bucketInsert st1.byctype e.ct n e
          order := odInsert st1.order n e
          parent := odInsert st1.parent e.eid st1.bid
          dict := odInsert st1.dict n (.comp e) } := by
  have horder1 : odLookup st1.order n = none := by
    rw [WF_dict_lookup hwf1 n] at hd1
    cases ho : odLookup st1.order n with
    | none => rfl
    | some e2 => simp [ho] at hd1
  have hkeys1 : n ∉ st1.order.map Prod.fst := odLookup_eq_none_iff.mp horder1
  have heid1 : ∀ q ∈ st1.order, q.2.eid ≠ e.eid := by
    intro q hq hc
    have := hwf1.2.2.2.2.2.2.2 q hq
    rw [hc, hp1] at this
    exact Option.noConfusion this
  have hbn : odLookup (bucketOf st1.byctype e.ct) n = none := by
    rw [odLookup_eq_none_iff]
    intro hmem
    obtain ⟨q, hq, hq1⟩ := List.mem_map.mp hmem
    exact hkeys1 (List.mem_map.mpr ⟨q, (WF_bucketOf_mem hwf1 hq).1, hq1⟩)
  have horder2 : odInsert st1.order n e = st1.order ++ [(n, e)] :=
    odInsert_of_not_mem _ horder1
  have hdict2 : odInsert st1.dict n (AttrVal.comp e) = st1.dict ++ [(n, .comp e)] :=
    odInsert_of_not_mem _ hd1
  have hpar2 : odInsert st1.parent e.eid st1.bid = st1.parent ++ [(e.eid, st1.bid)] :=
    odInsert_of_not_mem _ hp1
  refine ⟨?_, ?_, ?_, ?_, ?_, ?_, ?_, ?_⟩
  · show odInsert st1.dict n (AttrVal.comp e) = _
    rw [hdict2, horder2, hwf1.1, List.map_append]
    rfl
  · show ((odInsert st1.order n e).map Prod.fst).Nodup
    rw [horder2, List.map_append]
    exact nodup_append_single hwf1.2.1 hkeys1
  · show ((odInsert st1.order n e).map (fun p => p.2.eid)).Nodup
    rw [horder2, List.map_append]
    refine nodup_append_single hwf1.2.2.1 ?_
    intro hmem
    obtain ⟨q, hq, hq1⟩ := List.mem_map.mp hmem
    exact heid1 q hq hq1
  · exact bucketInsert_keys_nodup _ _ _ hwf1.2.2.2.1
  · show ((odInsert st1.parent e.eid st1.bid).map Prod.fst).Nodup
    rw [hpar2, List.map_append]
    exact nodup_append_single hwf1.2.2.2.2.1 (odLookup_eq_none_iff.mp hp1)
  · intro p hp
    rcases mem_bucketInsert hwf1.2.2.2.1 hp with ⟨hpc, hpv⟩ | ⟨hpb, hpne⟩
    · have hbv : odInsert (bucketOf st1.byctype e.ct) n e
          = bucketOf st1.byctype e.ct ++ [(n, e)] := odInsert_of_not_mem _ hbn
      refine ⟨?_, ?_, ?_⟩
      · rw [hpv, hbv]
        simp
      · rw [hpv, hbv, List.map_append]
        refine nodup_append_single (WF_bucket_keys_nodup hwf1 e.ct) ?_
        exact odLookup_eq_none_iff.mp hbn
      · intro q hq
        rw [hpv, hbv] at hq
        rcases List.mem_append.mp hq with hq2 | hq2
        · obtain ⟨hqo, hqc⟩ := WF_bucketOf_mem hwf1 hq2
          refine ⟨?_, by rw [hqc, hpc]⟩
          show q ∈ odInsert st1.order n e
          rw [horder2]
          exact List.mem_append_left _ hqo
        · rcases List.mem_singleton.mp hq2 with rfl
          refine ⟨?_, by rw [hpc]⟩
          show (n, e) ∈ odInsert st1.order n e
          rw [horder2]
          exact List.mem_append_right _ (List.mem_singleton.mpr rfl)
    · obtain ⟨hne0, hnd0, hq0⟩ := hwf1.2.2.2.2.2.1 p hpb
      refine ⟨hne0, hnd0, ?_⟩
      intro q hq
      obtain ⟨hqo, hqc⟩ := hq0 q hq
      refine ⟨?_, hqc⟩
      show q ∈ odInsert st1.order n e
      rw [horder2]
      exact List.mem_append_left _ hqo
  · intro q hq
    show q ∈ bucketOf (bucketInsert st1.byctype e.ct n e) q.2.ct
    rw [show ({ st1 with
          byctype := bucketInsert st1.byctype e.ct n e
          order := odInsert st1.order n e
          parent := odInsert st1.parent e.eid st1.bid
          dict := odInsert st1.dict n (.comp e) } : BlockState).order
        = odInsert st1.order n e from rfl, horder2] at hq
    rcases List.mem_append.mp hq with hq2 | hq2
    · by_cases hc : q.2.ct = e.ct
      · rw [hc, bucketOf_bucketInsert_self _ _ _ _ hbn]
        refine List.mem_append_left _ ?_
        have := hwf1.2.2.2.2.2.2.1 q hq2
        rw [hc] at this
        exact this
      · rw [bucketOf_bucketInsert_ne _ _ _ (fun hcc => hc hcc.symm)]
        exact hwf1.2.2.2.2.2.2.1 q hq2
    · rcases List.mem_singleton.mp hq2 with rfl
      rw [bucketOf_bucketInsert_self _ _ _ _ hbn]
      exact List.mem_append_right _ (List.mem_singleton.mpr rfl)
  · intro q hq
    show odLookup (odInsert st1.parent e.eid st1.bid) q.2.eid = some st1.bid
    rw [show ({ st1 with
          byctype := bucketInsert st1.byctype e.ct n e
          order := odInsert st1.order n e
          parent := odInsert st1.parent e.eid st1.bid
          dict := odInsert st1.dict n (.comp e) } : BlockState).order
        = odInsert st1.order n e from rfl, horder2] at hq
    rcases List.mem_append.mp hq with hq2 | hq2
    · rw [odLookup_odInsert_ne _ _ (fun hc => heid1 q hq2 hc.symm)]
      exact hwf1.2.2.2.2.2.2.2 q hq2
    · rcases List.mem_singleton.mp hq2 with rfl
      exact odLookup_odInsert_self _ _ _

theorem WF_attachState {st : BlockState} (n : String) (e : Entity)
    (hwf : WF st) (hp : odLookup st.parent e.eid = none) :
    WF (attachState st n e) := by
  by_cases hc : (odLookup st.dict n).isSome
  · have hst1 : WF (delattrCore st n) := WF_delattrCore n hwf
    have hd1 : odLookup (delattrCore st n).dict n = none := by
      rw [delattrCore_dict_eq]
      refine odLookup_odErase_self ?_
      rw [WF_dict_keys hwf]
      exact hwf.2.1
    have hp1 : odLookup (delattrCore st n).parent e.eid = none := by
      rw [odLookup_eq_none_iff]
      intro hmem
      refine odLookup_eq_none_iff.mp hp ?_
      exact ((delattrCore_parent_sub st n).map Prod.fst).mem hmem
    have hbid : st.bid = (delattrCore st n).bid := (delattrCore_bid st n).symm
    unfold attachState
    rw [if_pos hc, hbid]
    exact WF_attach_core hst1 hd1 hp1
  · have hd1 : odLookup st.dict n = none := by
      cases hdn : odLookup st.dict n with
      | none => rfl
      | some v =>
        rw [hdn] at hc
        simp at hc
    unfold attachState
    rw [if_neg hc]
    exact WF_attach_core hwf hd1 hp

theorem WF_blockSetattr_comp {st st2 : BlockState} {n : String} {e : Entity}
    {w : Bool} (hwf : WF st)
    (h : blockSetattr st n (.comp e) = .ok w st2) : WF st2 := by
  cases hp : odLookup st.parent e.eid with
  | none =>
    simp only [blockSetattr, hp, SetResult.ok.injEq] at h
    rw [← h.2]
    exact WF_attachState n e hwf hp
  | some p =>
    by_cases hd : odLookup st.dict n = some (.comp e)
    · simp only [blockSetattr, hp, if_pos hd, SetResult.ok.injEq] at h
      rw [← h.2, odInsert_self hd]
      exact hwf
    · simp only [blockSetattr, hp, if_neg hd] at h
      exact absurd h (by simp)

theorem blockSetattr_err_eq {st st2 : BlockState} {n : String} {v : AttrVal}
    (h : blockSetattr st n v = .err st2) : st2 = st := by
  cases v with
  | plain w =>
    simp only [blockSetattr] at h
    exact absurd h (by simp)
  | comp e =>
    cases hp : odLookup st.parent e.eid with
    | none =>
      simp only [blockSetattr, hp] at h
      exact absurd h (by simp)
    | some p =>
      by_cases hd : odLookup st.dict n = some (.comp e)
      · simp only [blockSetattr, hp, if_pos hd] at h
        exact absurd h (by simp)
      · simp only [blockSetattr, hp, if_neg hd, SetResult.err.injEq] at h
        exact h.symm

theorem WF_applyOp {st : BlockState} (op : BOp) (hwf : WF st) :
    WF (applyOp st op) := by
  cases op with
  | attach n e =>
    cases h : blockSetattr st n (.comp e) with
    | ok w st2 =>
      simp only [applyOp, h]
      exact WF_blockSetattr_comp hwf h
    | err st2 =>
      simp only [applyOp, h]
      rw [blockSetattr_err_eq h]
      exact hwf
  | detach n =>
    by_cases hc : (odLookup st.dict n).isSome
    · simp only [applyOp, blockDelattr, if_pos hc]
      exact WF_delattrCore n hwf
    · simp only [applyOp, blockDelattr, if_neg hc]
      exact hwf

theorem WF_freshBlock (bid : Nat) : WF (freshBlock bid) := by
  refine ⟨rfl, ?_, ?_, ?_, ?_, ?_, ?_, ?_⟩ <;> simp [freshBlock, bucketOf]

theorem WF_applyOps (ops : List BOp) {st : BlockState} (hwf : WF st) :
    WF (applyOps st ops) := by
  induction ops generalizing st with
  | nil => exact hwf
  | cons op rest ih => exact ih (WF_applyOp op hwf)

/-! ## Facts about the attach-success state -/

theorem attachState_of_isSome {st : BlockState} {n : String} (e : Entity)
    (hsome : (odLookup st.dict n).isSome = true) :
    attachState st n e =
      { delattrCore st n with
        byctype := bucketInsert (delattrCore st n).byctype e.ct n e
        order := odInsert (delattrCore st n).order n e
        parent := odInsert (delattrCore st n).parent e.eid st.bid
        dict := odInsert (delattrCore st n).dict n (.comp e) } := by
  unfold attachState
  rw [if_pos hsome]

theorem attachState_of_none {st : BlockState} {n : String} (e : Entity)
    (hnone : odLookup st.dict n = none) :
    attachState st n e =
      { st with
        byctype := bucketInsert st.byctype e.ct n e
        order := odInsert st.order n e
        parent := odInsert st.parent e.eid st.bid
        dict := odInsert st.dict n (.comp e) } := by
  unfold attachState
  rw [if_neg (by rw [hnone]; simp)]

theorem attachState_dict_lookup (st : BlockState) (n : String) (e : Entity) :
    odLookup (attachState st n e).dict n = some (.comp e) := by
  by_cases hsome : (odLookup st.dict n).isSome
  · rw [attachState_of_isSome e hsome]
    exact odLookup_odInsert_self _ _ _
  · rw [attachState_of_none e (by cases hd : odLookup st.dict n with
      | none => rfl
      | some v => rw [hd] at hsome; simp at hsome)]
    exact odLookup_odInsert_self _ _ _

theorem WF_bucket_lookup_none {st : BlockState} (hwf : WF st) {n : String}
    (horder : odLookup st.order n = none) (c : Ctype) :
    odLookup (bucketOf st.byctype c) n = none := by
  rw [odLookup_eq_none_iff]
  intro hmem
  obtain ⟨q, hq, hq1⟩ := List.mem_map.mp hmem
  refine odLookup_eq_none_iff.mp horder ?_
  exact List.mem_map.mpr ⟨q, (WF_bucketOf_mem hwf hq).1, hq1⟩

/-! ## Traversal engine lemmas -/

theorem preorder_blk (ct : Option Ctype) (a ipb : Bool) (rk : Option String)
    (act : Bool) (cs : List (String × Node)) :
    preorder ct a ipb rk (.blk act cs) =
      if a ∧ ¬act then []
      else
        (if ipb ∨ ct = none ∨ ct = some .Block then [(rk, Node.blk act cs)] else [])
          ++ preorderKids ct a ipb cs := by
  rw [preorder]

theorem postorder_blk (ct : Option Ctype) (a ipb : Bool) (rk : Option String)
    (act : Bool) (cs : List (String × Node)) :
    postorder ct a ipb rk (.blk act cs) =
      if a ∧ ¬act then []
      else
        postorderKids ct a ipb cs
          ++ (if ipb ∨ ct = none ∨ ct = some .Block then [(rk, Node.blk act cs)] else []) := by
  rw [postorder]

theorem preorderKids_nil (ct : Option Ctype) (a ipb : Bool) :
    preorderKids ct a ipb [] = [] := by
  rw [preorderKids]

theorem postorderKids_nil (ct : Option Ctype) (a ipb : Bool) :
    postorderKids ct a ipb [] = [] := by
  rw [postorderKids]

theorem preorderKids_cons (ct : Option Ctype) (a ipb : Bool) (k : String)
    (ch : Node) (rest : List (String × Node)) :
    preorderKids ct a ipb ((k, ch) :: rest) =
      preorderChildStep ct a ipb (k, ch) ++ preorderKids ct a ipb rest := by
  cases ch with
  | leaf c2 a2 =>
    rw [preorderKids]
    congr 1
  | blk a2 cs2 =>
    rw [preorderKids]
    congr 1
  | cont c2 a2 cs2 =>
    rw [preorderKids]
    congr 1
    simp only [preorderChildStep]
    by_cases h1 : ct = none
      ∨ ct = some (Node.cont c2 a2 cs2).ctype ∨ (Node.cont c2 a2 cs2).ctype = .Block
    · rw [if_pos h1, if_pos h1]
      by_cases h2 : ¬a ∨ (Node.cont c2 a2 cs2).activeDefault
      · rw [if_pos h2, if_pos h2]
        by_cases h3 : c2 = Ctype.Block
        · rw [if_pos h3, if_pos h3]
          refine attach_flatMap_eq _ _ _ ?_
          rintro ⟨⟨ok, obj⟩, hx⟩
          cases obj <;> rfl
        · rw [if_neg h3, if_neg h3]
      · rw [if_neg h2, if_neg h2]
    · rw [if_neg h1, if_neg h1]

theorem postorderKids_cons (ct : Option Ctype) (a ipb : Bool) (k : String)
    (ch : Node) (rest : List (String × Node)) :
    postorderKids ct a ipb ((k, ch) :: rest) =
      postorderChildStep ct a ipb (k, ch) ++ postorderKids ct a ipb rest := by
  cases ch with
  | leaf c2 a2 =>
    rw [postorderKids]
    congr 1
  | blk a2 cs2 =>
    rw [postorderKids]
    congr 1
  | cont c2 a2 cs2 =>
    rw [postorderKids]
    congr 1
    simp only [postorderChildStep]
    by_cases h1 : ct = none
      ∨ ct = some (Node.cont c2 a2 cs2).ctype ∨ (Node.cont c2 a2 cs2).ctype = .Block
    · rw [if_pos h1, if_pos h1]
      by_cases h2 : ¬a ∨ (Node.cont c2 a2 cs2).activeDefault
      · rw [if_pos h2, if_pos h2]
        by_cases h3 : c2 = Ctype.Block
        · rw [if_pos h3, if_pos h3]
          refine attach_flatMap_eq _ _ _ ?_
          rintro ⟨⟨ok, obj⟩, hx⟩
          cases obj <;> rfl
        · rw [if_neg h3, if_neg h3]
      · rw [if_neg h2, if_neg h2]
    · rw [if_neg h1, if_neg h1]

theorem preorderKids_eq_flatMap (ct : Option Ctype) (a ipb : Bool)
    (cs : List (String × Node)) :
    preorderKids ct a ipb cs = cs.flatMap (preorderChildStep ct a ipb) := by
  induction cs with
  | nil => rw [preorderKids_nil, List.flatMap_nil]
  | cons hd tl ih =>
    obtain ⟨k, ch⟩ := hd
    rw [preorderKids_cons, List.flatMap_cons, ih]

theorem postorderKids_eq_flatMap (ct : Option Ctype) (a ipb : Bool)
    (cs : List (String × Node)) :
    postorderKids ct a ipb cs = cs.flatMap (postorderChildStep ct a ipb) := by
  induction cs with
  | nil => rw [postorderKids_nil, List.flatMap_nil]
  | cons hd tl ih =>
    obtain ⟨k, ch⟩ := hd
    rw [postorderKids_cons, List.flatMap_cons, ih]

theorem preorderChildStep_inactive {ct : Option Ctype} {ipb : Bool} {k : String}
    {ch : Node} (h : ch.activeDefault = false) :
    preorderChildStep ct true ipb (k, ch) = [] := by
  simp only [preorderChildStep]
  by_cases h1 : ct = none ∨ ct = some ch.ctype ∨ ch.ctype = .Block
  · rw [if_pos h1, if_neg (by simp [h])]
  · rw [if_neg h1]

theorem preorderChildStep_wrong_ctype {c : Ctype} {a ipb : Bool} {k : String}
    {ch : Node} (h1 : ch.ctype ≠ c) (h2 : ch.ctype ≠ .Block) :
    preorderChildStep (some c) a ipb (k, ch) = [] := by
  simp only [preorderChildStep]
  rw [if_neg (by simp [h2]; intro hc; exact h1 hc.symm)]

theorem preorderKids_drop {ct : Option Ctype} {a ipb : Bool}
    (cs1 cs2 : List (String × Node)) {k : String} {ch : Node}
    (h : preorderChildStep ct a ipb (k, ch) = []) :
    preorderKids ct a ipb (cs1 ++ (k, ch) :: cs2)
      = preorderKids ct a ipb (cs1 ++ cs2) := by
  rw [preorderKids_eq_flatMap, preorderKids_eq_flatMap, List.flatMap_append,
    List.flatMap_append, List.flatMap_cons, h, List.nil_append]

/-- C1: the preorder filtering rules. (1) When `active=True` is requested,
a child whose active flag is explicitly False is dropped together with its
whole subtree: the traversal of the block equals the traversal with that
child removed. (2) When a category is requested, a child that is neither
of that category nor of category `Block` is dropped together with its
subtree. (3) A child block always passes the category filter: its step in
the child loop is exactly the full recursive traversal of the block
(subject only to the active filter). (4) When `include_parent_blocks` is
False and the requested category is a non-`Block` one, a block yields
nothing for itself but its children are still traversed. -/
theorem C1_preorder_filtering :
    (∀ (ct : Option Ctype) (ipb : Bool)
        (cs1 cs2 : List (String × Node)) (k : String) (ch : Node),
        ch.activeDefault = false →
        preorderKids ct true ipb (cs1 ++ (k, ch) :: cs2)
          = preorderKids ct true ipb (cs1 ++ cs2))
    ∧ (∀ (c : Ctype) (a ipb : Bool)
        (cs1 cs2 : List (String × Node)) (k : String) (ch : Node),
        ch.ctype ≠ c → ch.ctype ≠ .Block →
        preorderKids (some c) a ipb (cs1 ++ (k, ch) :: cs2)
          = preorderKids (some c) a ipb (cs1 ++ cs2))
    ∧ (∀ (ct : Option Ctype) (a ipb : Bool) (k : String) (a2 : Bool)
        (cs2 rest : List (String × Node)),
        preorderKids ct a ipb ((k, .blk a2 cs2) :: rest)
          = (if ¬a ∨ a2 then preorder ct a ipb (some k) (.blk a2 cs2) else [])
            ++ preorderKids ct a ipb rest)
    ∧ (∀ (c : Ctype) (a : Bool) (rk : Option String) (act : Bool)
        (cs : List (String × Node)),
        c ≠ .Block →
        preorder (some c) a false rk (.blk act cs)
          = if a ∧ ¬act then [] else preorderKids (some c) a false cs) := by
  refine ⟨?_, ?_, ?_, ?_⟩
  · intro ct ipb cs1 cs2 k ch hact
    exact preorderKids_drop cs1 cs2 (preorderChildStep_inactive hact)
  · intro c a ipb cs1 cs2 k ch hc hb
    exact preorderKids_drop cs1 cs2 (preorderChildStep_wrong_ctype hc hb)
  · intro ct a ipb k a2 cs2 rest
    rw [preorderKids_cons]
    congr 1
    simp only [preorderChildStep]
    rw [if_pos (show ct = none ∨ ct = some (Node.blk a2 cs2).ctype
        ∨ (Node.blk a2 cs2).ctype = Ctype.Block from Or.inr (Or.inr rfl))]
    rfl
  · intro c a rk act cs hc
    rw [preorder_blk]
    by_cases h : a ∧ ¬act
    · rw [if_pos h, if_pos h]
    · rw [if_neg h, if_neg h,
        if_neg (show ¬(false = true ∨ some c = none ∨ some c = some Ctype.Block) by
          simp
          exact hc), List.nil_append]

/-- Witness for C1 at concrete trees: an explicitly inactive leaf is
dropped, a leaf of the wrong category is dropped, a child block is
recursed into, and with `include_parent_blocks=False` under a non-block
category the block itself is not emitted. -/
theorem C1_preorder_filtering_witness :
    (preorderKids none true true [("x", Node.leaf (.C 0) (some false))]
      = preorderKids none true true [])
    ∧ (preorderKids (some (.C 1)) false true [("x", Node.leaf (.C 0) none)]
      = preorderKids (some (.C 1)) false true [])
    ∧ (preorderKids none false true [("b", Node.blk true [])]
      = (if ¬false ∨ true then preorder none false true (some "b") (.blk true []) else [])
        ++ preorderKids none false true [])
    ∧ (preorder (some (.C 0)) false false none (.blk true [])
      = if false ∧ ¬true then [] else preorderKids (some (.C 0)) false false []) :=
  ⟨(C1_preorder_filtering.1 none true [] [] "x" _ (by decide)),
   (C1_preorder_filtering.2.1 (.C 1) false true [] [] "x"
      (Node.leaf (.C 0) none) (by decide) (by decide)),
   (C1_preorder_filtering.2.2.1 none false true "b" true [] []),
   (C1_preorder_filtering.2.2.2 (.C 0) false none true [] (by decide))⟩

/-- The container preorder and postorder visit the same entries. -/
theorem contPerm (a : Bool) :
    ∀ (N : Nat) (c : Node), c.sz ≤ N → ∀ rk,
      (preorderCont a rk c).Perm (postorderCont a rk c) := by
  intro N
  induction N with
  | zero =>
    intro c hc
    have := Node.sz_pos c
    omega
  | succ N ih =>
    intro c hc rk
    cases c with
    | leaf ct actf =>
      simp only [preorderCont, postorderCont]
      exact List.Perm.refl _
    | blk act cs =>
      simp only [preorderCont, postorderCont]
      exact List.Perm.refl _
    | cont ct actf cs =>
      rw [preorderCont_cont, postorderCont_cont]
      by_cases h : a ∧ ¬(Option.getD actf true)
      · rw [if_pos h, if_pos h]
      · rw [if_neg h, if_neg h]
        have hstep : ∀ q ∈ cs, (preorderContStep a q).Perm (postorderContStep a q) := by
          rintro ⟨k, ch⟩ hq
          cases ch with
          | leaf c2 a2 =>
            simp only [preorderContStep, postorderContStep]
            exact List.Perm.refl _
          | blk a2 cs2 =>
            simp only [preorderContStep, postorderContStep]
            exact List.Perm.refl _
          | cont c2 a2 cs2 =>
            simp only [preorderContStep, postorderContStep]
            by_cases h2 : a ∧ ¬(Node.cont c2 a2 cs2).activeDefault
            · rw [if_pos h2, if_pos h2]
            · rw [if_neg h2, if_neg h2]
              refine ih _ ?_ _
              have hlt := @Node.sz_lt_cont _ _ ct actf _ hq
              simp only [Node.sz] at hc hlt ⊢
              omega
        refine List.Perm.trans (List.Perm.cons _ ?_) (List.perm_append_singleton _ _).symm
        exact List.Perm.flatMap_left cs hstep

/-- The block preorder and postorder visit the same entries. -/
theorem prePostPerm (ct : Option Ctype) (a ipb : Bool) :
    ∀ N : Nat,
      (∀ (n : Node), n.sz ≤ N → ∀ rk,
        (preorder ct a ipb rk n).Perm (postorder ct a ipb rk n))
      ∧ (∀ cs : List (String × Node), Node.szL cs ≤ N →
          (preorderKids ct a ipb cs).Perm (postorderKids ct a ipb cs)) := by
  intro N
  induction N with
  | zero =>
    constructor
    · intro n hn
      have := Node.sz_pos n
      omega
    · intro cs hcs
      cases cs with
      | nil => rw [preorderKids_nil, postorderKids_nil]
      | cons hd tl =>
        obtain ⟨k, ch⟩ := hd
        have := Node.sz_pos ch
        simp only [Node.szL] at hcs
        omega
  | succ N ih =>
    obtain ⟨ih1, ih2⟩ := ih
    have node1 : ∀ (n : Node), n.sz ≤ N + 1 → ∀ rk,
        (preorder ct a ipb rk n).Perm (postorder ct a ipb rk n) := by
      intro n hn rk
      cases n with
      | leaf c actf =>
        simp only [preorder, postorder]
        exact List.Perm.refl _
      | cont c actf cs =>
        simp only [preorder, postorder]
        exact contPerm a _ _ (Nat.le_refl _) rk
      | blk act cs =>
        rw [preorder_blk, postorder_blk]
        by_cases h : a ∧ ¬act
        · rw [if_pos h, if_pos h]
        · rw [if_neg h, if_neg h]
          have hkids : (preorderKids ct a ipb cs).Perm (postorderKids ct a ipb cs) := by
            refine ih2 cs ?_
            simp only [Node.sz] at hn
            omega
          exact (hkids.append_left _).trans List.perm_append_comm
    have kids1 : ∀ cs : List (String × Node), Node.szL cs ≤ N + 1 →
        (preorderKids ct a ipb cs).Perm (postorderKids ct a ipb cs) := by
      intro cs
      induction cs with
      | nil =>
        intro
        rw [preorderKids_nil, postorderKids_nil]
      | cons hd tl ihtl =>
        intro hcs
        obtain ⟨k, ch⟩ := hd
        rw [preorderKids_cons, postorderKids_cons]
        refine List.Perm.append ?_ (ihtl ?_)
        · have hchsz : ch.sz ≤ N + 1 := by
            simp only [Node.szL] at hcs
            omega
          cases ch with
          | leaf c2 a2 =>
            simp only [preorderChildStep, postorderChildStep]
            exact List.Perm.refl _
          | blk a2 cs2 =>
            simp only [preorderChildStep, postorderChildStep]
            by_cases h1 : ct = none ∨ ct = some (Node.blk a2 cs2).ctype
              ∨ (Node.blk a2 cs2).ctype = .Block
            · rw [if_pos h1, if_pos h1]
              by_cases h2 : ¬a ∨ (Node.blk a2 cs2).activeDefault
              · rw [if_pos h2, if_pos h2]
                exact node1 _ hchsz _
              · rw [if_neg h2, if_neg h2]
            · rw [if_neg h1, if_neg h1]
          | cont c2 a2 cs2 =>
            simp only [preorderChildStep, postorderChildStep]
            by_cases h1 : ct = none ∨ ct = some (Node.cont c2 a2 cs2).ctype
              ∨ (Node.cont c2 a2 cs2).ctype = .Block
            · rw [if_pos h1, if_pos h1]
              by_cases h2 : ¬a ∨ (Node.cont c2 a2 cs2).activeDefault
              · rw [if_pos h2, if_pos h2]
                by_cases h3 : c2 = Ctype.Block
                · rw [if_pos h3, if_pos h3]
                  have hm : ∀ p ∈ preorderCont a (some k) (Node.cont c2 a2 cs2),
                      (preorderObjStep ct a ipb p).Perm (postorderObjStep ct a ipb p) := by
                    rintro ⟨ok, obj⟩ hp
                    cases obj with
                    | cont c3 a3 cs3 =>
                      simp only [preorderObjStep, postorderObjStep]
                      exact List.Perm.refl _
                    | leaf c3 a3 =>
                      simp only [preorderObjStep, postorderObjStep]
                      rcases preorderCont_sz a _ _ (Nat.le_refl _) _ _ hp with he | hlt
                      · simp at he
                      · refine node1 _ ?_ _
                        simp only at hlt
                        omega
                    | blk a3 cs3 =>
                      simp only [preorderObjStep, postorderObjStep]
                      rcases preorderCont_sz a _ _ (Nat.le_refl _) _ _ hp with he | hlt
                      · simp at he
                      · refine node1 _ ?_ _
                        simp only at hlt
                        omega
                  refine (List.Perm.flatMap_left _ hm).trans ?_
                  exact List.Perm.flatMap_right (postorderObjStep ct a ipb)
                    (contPerm a _ _ (Nat.le_refl _) (some k))
                · rw [if_neg h3, if_neg h3]
                  exact contPerm a _ _ (Nat.le_refl _) (some k)
              · rw [if_neg h2, if_neg h2]
            · rw [if_neg h1, if_neg h1]
        · simp only [Node.szL] at hcs
          have := Node.sz_pos ch
          omega
    exact ⟨node1, kids1⟩

/-- The names generated for a non-`Block` child container cover exactly
the entries of the container traversal. -/
theorem genNamesContO_fst (a : Bool) :
    ∀ (N : Nat) (c2 : Ctype) (actf : Option Bool) (cs : List (String × Node)),
      (Node.cont c2 actf cs).sz ≤ N → ∀ (nm : String) (rk : Option String),
      (genNamesContO a nm (.cont c2 actf cs)).map Prod.fst
        = (preorderCont a rk (.cont c2 actf cs)).map Prod.snd := by
  intro N
  induction N with
  | zero =>
    intro c2 actf cs hc
    have := Node.sz_pos (Node.cont c2 actf cs)
    omega
  | succ N ih =>
    intro c2 actf cs hc nm rk
    rw [genNamesContO, preorderCont_cont]
    by_cases h : a ∧ ¬(Option.getD actf true)
    · rw [if_pos h, if_pos h]
      rfl
    · rw [if_neg h, if_neg h]
      simp only [List.map_cons]
      congr 1
      have hsub : ∀ q ∈ cs, q.2.sz ≤ N := by
        rintro ⟨k2, m⟩ hq
        have := @Node.sz_lt_cont _ _ c2 actf _ hq
        simp only [Node.sz] at hc this ⊢
        omega
      clear hc
      induction cs with
      | nil =>
        rw [genNamesContOKids, List.flatMap_nil]
        rfl
      | cons hd tl ihtl =>
        obtain ⟨k2, m⟩ := hd
        have hrest := ihtl (fun q hq => hsub q (List.mem_cons_of_mem _ hq))
        by_cases h2 : ¬a ∨ m.activeDefault
        · cases m with
          | leaf c3 a3 =>
            simp only [genNamesContOKids]
            rw [List.flatMap_cons, List.map_append, List.map_append, hrest]
            congr 1
            rw [if_pos h2]
            simp only [preorderContStep]
            rw [if_neg (by
              rcases h2 with h2 | h2
              · simp [h2]
              · simp [h2])]
            rfl
          | blk a3 cs3 =>
            simp only [genNamesContOKids]
            rw [List.flatMap_cons, List.map_append, List.map_append, hrest]
            congr 1
            rw [if_pos h2]
            simp only [preorderContStep]
            rw [if_neg (by
              rcases h2 with h2 | h2
              · simp [h2]
              · simp [h2])]
            rfl
          | cont c3 a3 cs3 =>
            rw [genNamesContOKids, List.flatMap_cons, List.map_append,
              List.map_append, hrest]
            congr 1
            rw [if_pos h2]
            simp only [preorderContStep]
            rw [if_neg (by
              rcases h2 with h2 | h2
              · simp [h2]
              · simp [h2])]
            exact ih c3 a3 cs3 (hsub (k2, .cont c3 a3 cs3) (List.mem_cons_self _ _))
              (nm ++ "." ++ k2) (some k2)
        · have h2' : a = true ∧ ¬(m.activeDefault = true) := by
            rcases not_or.mp h2 with ⟨hna, hm⟩
            exact ⟨not_not.mp hna, hm⟩
          cases m with
          | leaf c3 a3 =>
            simp only [genNamesContOKids]
            rw [List.flatMap_cons, List.map_append, List.map_append, hrest]
            congr 1
            rw [if_neg h2]
            simp only [preorderContStep]
            rw [if_pos h2']
            rfl
          | blk a3 cs3 =>
            simp only [genNamesContOKids]
            rw [List.flatMap_cons, List.map_append, List.map_append, hrest]
            congr 1
            rw [if_neg h2]
            simp only [preorderContStep]
            rw [if_pos h2']
            rfl
          | cont c3 a3 cs3 =>
            rw [genNamesContOKids, List.flatMap_cons, List.map_append,
              List.map_append, hrest]
            congr 1
            rw [if_neg h2]
            simp only [preorderContStep]
            rw [if_pos h2']
            rfl

/-- The names generated for the children of a block cover exactly the
entries of the child loop of the preorder traversal (with
`include_parent_blocks=True`), and the names generated for a child
container of ctype `Block` cover exactly the entries the child loop
produces for it. -/
theorem genNames_fst_aux (ct : Option Ctype) (a : Bool) (pfx : String) :
    ∀ N : Nat,
      (∀ cs : List (String × Node), Node.szL cs ≤ N → ∀ pn : Option String,
        (genNamesKids ct a pfx pn cs).map Prod.fst
          = (preorderKids ct a true cs).map Prod.snd)
      ∧ (∀ (c2 : Ctype) (actf : Option Bool) (cs2 : List (String × Node)),
          (Node.cont c2 actf cs2).sz ≤ N → ∀ (nm : String) (rk : Option String),
          (genNamesContB ct a pfx nm (.cont c2 actf cs2)).map Prod.fst
            = ((preorderCont a rk (.cont c2 actf cs2)).flatMap
                (preorderObjStep ct a true)).map Prod.snd) := by
  intro N
  induction N with
  | zero =>
    constructor
    · intro cs hcs pn
      cases cs with
      | nil =>
        rw [genNamesKids, preorderKids_nil]
        rfl
      | cons hd tl =>
        obtain ⟨k, ch⟩ := hd
        have := Node.sz_pos ch
        simp only [Node.szL] at hcs
        omega
    · intro c2 actf cs2 hc
      have := Node.sz_pos (Node.cont c2 actf cs2)
      omega
  | succ N ih =>
    obtain ⟨ih1, ih2⟩ := ih
    have contB1 : ∀ (c2 : Ctype) (actf : Option Bool) (cs2 : List (String × Node)),
        (Node.cont c2 actf cs2).sz ≤ N + 1 → ∀ (nm : String) (rk : Option String),
        (genNamesContB ct a pfx nm (.cont c2 actf cs2)).map Prod.fst
          = ((preorderCont a rk (.cont c2 actf cs2)).flatMap
              (preorderObjStep ct a true)).map Prod.snd := by
      intro c2 actf cs2 hc nm rk
      rw [genNamesContB, preorderCont_cont]
      by_cases h : a ∧ ¬(Option.getD actf true)
      · rw [if_pos h, if_pos h]
        rfl
      · rw [if_neg h, if_neg h, List.flatMap_cons]
        have hobj : preorderObjStep ct a true (rk, Node.cont c2 actf cs2)
            = [(rk, Node.cont c2 actf cs2)] := by
          simp [preorderObjStep]
        rw [hobj]
        simp only [List.map_cons, List.map_append, List.singleton_append]
        congr 1
        rw [List.flatMap_assoc]
        have hwalk : ∀ l : List (String × Node), (∀ q ∈ l, q.2.sz ≤ N) →
            (genNamesContBKids ct a pfx nm l).map Prod.fst
              = (l.flatMap fun q =>
                  (preorderContStep a q).flatMap (preorderObjStep ct a true)).map
                Prod.snd := by
          intro l
          induction l with
          | nil =>
            intro _
            rw [genNamesContBKids, List.flatMap_nil]
            rfl
          | cons hd tl ihtl =>
            intro hsub
            obtain ⟨k2, m⟩ := hd
            have hrest := ihtl (fun q hq => hsub q (List.mem_cons_of_mem _ hq))
            by_cases h2 : ¬a ∨ m.activeDefault
            · cases m with
              | leaf c3 a3 =>
                simp only [genNamesContBKids]
                rw [List.flatMap_cons, List.map_append, List.map_append, hrest]
                congr 1
                rw [if_pos h2]
                simp only [preorderContStep]
                rw [if_neg (by
                  rcases h2 with h2 | h2
                  · simp [h2]
                  · simp [h2])]
                rw [List.flatMap_cons, List.flatMap_nil, List.append_nil]
                simp only [preorderObjStep, preorder]
                rw [if_neg (by
                  rcases h2 with h2 | h2
                  · simp [h2]
                  · intro hcon
                    exact hcon.2 (by
                      simpa [Node.activeDefault, Node.activeFlag] using h2))]
                rfl
              | blk a3 cs3 =>
                simp only [genNamesContBKids]
                rw [List.flatMap_cons, List.map_append, List.map_append, hrest]
                congr 1
                rw [if_pos h2]
                simp only [preorderContStep]
                rw [if_neg (by
                  rcases h2 with h2 | h2
                  · simp [h2]
                  · simp [h2])]
                rw [List.flatMap_cons, List.flatMap_nil, List.append_nil]
                simp only [preorderObjStep]
                rw [preorder_blk]
                rw [if_neg (by
                  rcases h2 with h2 | h2
                  · simp [h2]
                  · intro hcon
                    exact hcon.2 (by
                      simpa [Node.activeDefault, Node.activeFlag] using h2)),
                  if_pos (Or.inl (by trivial))]
                simp only [List.map_cons, List.singleton_append, List.map_append]
                congr 1
                refine ih1 cs3 ?_ (some (nm ++ "." ++ k2))
                have := hsub (k2, Node.blk a3 cs3) (List.mem_cons_self _ _)
                simp only [Node.sz] at this
                omega
              | cont c3 a3 cs3 =>
                rw [genNamesContBKids, List.flatMap_cons, List.map_append,
                  List.map_append, hrest]
                congr 1
                rw [if_pos h2]
                simp only [preorderContStep]
                rw [if_neg (by
                  rcases h2 with h2 | h2
                  · simp [h2]
                  · simp [h2])]
                exact ih2 c3 a3 cs3 (hsub (k2, .cont c3 a3 cs3) (List.mem_cons_self _ _))
                  (nm ++ "." ++ k2) (some k2)
            · have h2' : a = true ∧ ¬(m.activeDefault = true) := by
                rcases not_or.mp h2 with ⟨hna, hm⟩
                exact ⟨not_not.mp hna, hm⟩
              cases m with
              | leaf c3 a3 =>
                simp only [genNamesContBKids]
                rw [List.flatMap_cons, List.map_append, List.map_append, hrest]
                congr 1
                rw [if_neg h2]
                simp only [preorderContStep]
                rw [if_pos h2']
                rfl
              | blk a3 cs3 =>
                simp only [genNamesContBKids]
                rw [List.flatMap_cons, List.map_append, List.map_append, hrest]
                congr 1
                rw [if_neg h2]
                simp only [preorderContStep]
                rw [if_pos h2']
                rfl
              | cont c3 a3 cs3 =>
                rw [genNamesContBKids, List.flatMap_cons, List.map_append,
                  List.map_append, hrest]
                congr 1
                rw [if_neg h2]
                simp only [preorderContStep]
                rw [if_pos h2']
                rfl
        refine hwalk cs2 ?_
        rintro ⟨k2, m⟩ hq
        have := @Node.sz_lt_cont _ _ c2 actf _ hq
        simp only [Node.sz] at hc this ⊢
        omega
    have kids1 : ∀ cs : List (String × Node), Node.szL cs ≤ N + 1 → ∀ pn : Option String,
        (genNamesKids ct a pfx pn cs).map Prod.fst
          = (preorderKids ct a true cs).map Prod.snd := by
      intro cs
      induction cs with
      | nil =>
        intro _ pn
        rw [genNamesKids, preorderKids_nil]
        rfl
      | cons hd tl ihtl =>
        intro hcs pn
        obtain ⟨k, ch⟩ := hd
        have hrest := ihtl (by
          simp only [Node.szL] at hcs ⊢
          have := Node.sz_pos ch
          omega) pn
        have hchsz : ch.sz ≤ N + 1 := by
          simp only [Node.szL] at hcs
          omega
        rw [preorderKids_cons]
        cases ch with
        | leaf c2 a2 =>
          simp only [genNamesKids]
          rw [List.map_append, List.map_append, hrest]
          congr 1
          simp only [preorderChildStep]
          by_cases h1 : ct = none ∨ ct = some (Node.leaf c2 a2).ctype
            ∨ (Node.leaf c2 a2).ctype = Ctype.Block
          · rw [if_pos h1, if_pos h1]
            by_cases h2 : ¬a ∨ (Node.leaf c2 a2).activeDefault
            · rw [if_pos h2, if_pos h2]
              rfl
            · rw [if_neg h2, if_neg h2]
              rfl
          · rw [if_neg h1, if_neg h1]
            rfl
        | blk a2 cs2 =>
          simp only [genNamesKids]
          rw [List.map_append, List.map_append, hrest]
          congr 1
          simp only [preorderChildStep]
          by_cases h1 : ct = none ∨ ct = some (Node.blk a2 cs2).ctype
            ∨ (Node.blk a2 cs2).ctype = Ctype.Block
          · rw [if_pos h1, if_pos h1]
            by_cases h2 : ¬a ∨ (Node.blk a2 cs2).activeDefault
            · rw [if_pos h2, if_pos h2]
              rw [preorder_blk]
              rw [if_neg (by
                rcases h2 with h2 | h2
                · simp [h2]
                · intro hcon
                  exact hcon.2 (by simpa [Node.activeDefault, Node.activeFlag] using h2)),
                if_pos (Or.inl rfl)]
              simp only [List.map_cons, List.singleton_append, List.map_append]
              congr 1
              refine ih1 cs2 ?_ (some (segName pfx pn k))
              simp only [Node.sz] at hchsz
              omega
            · rw [if_neg h2, if_neg h2]
              rfl
          · rw [if_neg h1, if_neg h1]
            rfl
        | cont c2 a2 cs2 =>
          simp only [genNamesKids]
          rw [List.map_append, List.map_append, hrest]
          congr 1
          simp only [preorderChildStep]
          by_cases h1 : ct = none ∨ ct = some (Node.cont c2 a2 cs2).ctype
            ∨ (Node.cont c2 a2 cs2).ctype = Ctype.Block
          · rw [if_pos h1, if_pos h1]
            by_cases h2 : ¬a ∨ (Node.cont c2 a2 cs2).activeDefault
            · rw [if_pos h2, if_pos h2]
              by_cases h3 : c2 = Ctype.Block
              · rw [if_pos h3, if_pos h3]
                exact contB1 c2 a2 cs2 hchsz (segName pfx pn k) (some k)
              · rw [if_neg h3, if_neg h3]
                exact genNamesContO_fst a ((Node.cont c2 a2 cs2).sz) c2 a2 cs2
                  (Nat.le_refl _) (segName pfx pn k) (some k)
            · rw [if_neg h2, if_neg h2]
              rfl
          · rw [if_neg h1, if_neg h1]
            rfl
    exact ⟨kids1, contB1⟩

/-- A child that passes the filters is named `segName` of its key. -/
theorem mem_genNamesKids {ct : Option Ctype} {a : Bool} {pfx : String} :
    ∀ (cs : List (String × Node)) (pn : Option String) (k : String) (ch : Node),
      (k, ch) ∈ cs → (ct = none ∨ ct = some ch.ctype ∨ ch.ctype = .Block) →
      (¬a ∨ ch.activeDefault) →
      (ch, segName pfx pn k) ∈ genNamesKids ct a pfx pn cs := by
  intro cs
  induction cs with
  | nil =>
    intro pn k ch h
    cases h
  | cons hd tl ih =>
    intro pn k ch hmem h1 h2
    obtain ⟨k0, ch0⟩ := hd
    rcases List.mem_cons.mp hmem with heq | hmem2
    · obtain ⟨hk, hch⟩ := Prod.mk.injEq .. ▸ heq
      subst hk
      subst hch
      cases ch with
      | leaf c2 a2 =>
        rw [genNamesKids]
        refine List.mem_append_left _ ?_
        rw [if_pos h1, if_pos h2]
        exact List.mem_singleton.mpr rfl
      | blk a2 cs2 =>
        rw [genNamesKids]
        refine List.mem_append_left _ ?_
        rw [if_pos h1, if_pos h2]
        exact List.mem_cons_self _ _
      | cont c2 a2 cs2 =>
        rw [genNamesKids]
        refine List.mem_append_left _ ?_
        rw [if_pos h1, if_pos h2]
        have hact : ¬(a ∧ ¬(Option.getD a2 true)) := by
          rcases h2 with h2 | h2
          · simp [h2]
          · intro hcon
            exact hcon.2 (by simpa [Node.activeDefault, Node.activeFlag] using h2)
        by_cases h3 : c2 = Ctype.Block
        · rw [if_pos h3, genNamesContB, if_neg hact]
          exact List.mem_cons_self _ _
        · rw [if_neg h3, genNamesContO, if_neg hact]
          exact List.mem_cons_self _ _
    · cases ch0 with
      | leaf c2 a2 =>
        rw [genNamesKids]
        exact List.mem_append_right _ (ih pn k ch hmem2 h1 h2)
      | blk a2 cs2 =>
        rw [genNamesKids]
        exact List.mem_append_right _ (ih pn k ch hmem2 h1 h2)
      | cont c2 a2 cs2 =>
        rw [genNamesKids]
        exact List.mem_append_right _ (ih pn k ch hmem2 h1 h2)

/-- Entries generated under a named child block stay in the child loop's
output for the whole list. -/
theorem genNamesKids_blk_descend {ct : Option Ctype} {a : Bool} {pfx : String} :
    ∀ (cs : List (String × Node)) (pn : Option String) (k1 : String) (a2 : Bool)
      (cs2 : List (String × Node)) (x : Node × String),
      (k1, Node.blk a2 cs2) ∈ cs → (¬a ∨ a2) →
      x ∈ genNamesKids ct a pfx (some (segName pfx pn k1)) cs2 →
      x ∈ genNamesKids ct a pfx pn cs := by
  intro cs
  induction cs with
  | nil =>
    intro pn k1 a2 cs2 x h
    cases h
  | cons hd tl ih =>
    intro pn k1 a2 cs2 x hmem hact hx
    obtain ⟨k0, ch0⟩ := hd
    rcases List.mem_cons.mp hmem with heq | hmem2
    · obtain ⟨hk, hch⟩ := Prod.mk.injEq .. ▸ heq
      subst hk
      cases hch
      rw [genNamesKids]
      refine List.mem_append_left _ ?_
      rw [if_pos (show ct = none ∨ ct = some (Node.blk a2 cs2).ctype ∨
            (Node.blk a2 cs2).ctype = Ctype.Block from Or.inr (Or.inr rfl)),
        if_pos (by
          rcases hact with hact | hact
          · exact Or.inl hact
          · exact Or.inr (by simpa [Node.activeDefault, Node.activeFlag] using hact))]
      exact List.mem_cons_of_mem _ hx
    · cases ch0 with
      | leaf c2 a3 =>
        rw [genNamesKids]
        exact List.mem_append_right _ (ih pn k1 a2 cs2 x hmem2 hact hx)
      | blk a3 cs3 =>
        rw [genNamesKids]
        exact List.mem_append_right _ (ih pn k1 a2 cs2 x hmem2 hact hx)
      | cont c2 a3 cs3 =>
        rw [genNamesKids]
        exact List.mem_append_right _ (ih pn k1 a2 cs2 x hmem2 hact hx)

/-- C8: `generate_names` (with `descend_into=True`) names exactly the
non-root entries that the preorder traversal (with
`include_parent_blocks=True`) visits, in order; an entity stored directly
under the root is named `prefix + key`; an entity stored under a deeper
block is named with its parent's name, the fixed `"."` delimiter and its
own key; in particular, in the §8 scenario the leaf stored at key "x"
under the block stored at key "b" is named "b.x". -/
theorem C8_generate_names :
    (∀ (ct : Option Ctype) (a : Bool) (pfx : String) (act : Bool)
        (cs : List (String × Node)),
        (genNames ct a pfx (.blk act cs)).map Prod.fst
          = ((preorder ct a true none (.blk act cs)).tail).map Prod.snd)
    ∧ (∀ (ct : Option Ctype) (a : Bool) (pfx : String) (act : Bool)
        (cs : List (String × Node)) (k : String) (ch : Node),
        ¬(a ∧ ¬act) → (k, ch) ∈ cs →
        (ct = none ∨ ct = some ch.ctype ∨ ch.ctype = .Block) →
        (¬a ∨ ch.activeDefault) →
        (ch, pfx ++ k) ∈ genNames ct a pfx (.blk act cs))
    ∧ (∀ (ct : Option Ctype) (a : Bool) (pfx : String) (act : Bool)
        (cs : List (String × Node)) (k1 : String) (a2 : Bool)
        (cs2 : List (String × Node)) (k2 : String) (ch2 : Node),
        ¬(a ∧ ¬act) → (k1, Node.blk a2 cs2) ∈ cs → (¬a ∨ a2) →
        (k2, ch2) ∈ cs2 →
        (ct = none ∨ ct = some ch2.ctype ∨ ch2.ctype = .Block) →
        (¬a ∨ ch2.activeDefault) →
        (ch2, (pfx ++ k1) ++ "." ++ k2) ∈ genNames ct a pfx (.blk act cs))
    ∧ ((Node.leaf (.C 0) none, "b.x") ∈ genNames none false ""
        (.blk true [("b", Node.blk true
          [("x", Node.leaf (.C 0) none), ("y", Node.leaf (.C 1) (some false))])])) := by
  have h2 : ∀ (ct : Option Ctype) (a : Bool) (pfx : String) (act : Bool)
      (cs : List (String × Node)) (k : String) (ch : Node),
      ¬(a ∧ ¬act) → (k, ch) ∈ cs →
      (ct = none ∨ ct = some ch.ctype ∨ ch.ctype = .Block) →
      (¬a ∨ ch.activeDefault) →
      (ch, pfx ++ k) ∈ genNames ct a pfx (.blk act cs) := by
    intro ct a pfx act cs k ch hroot hmem hc ha
    rw [genNames, if_neg hroot]
    exact mem_genNamesKids cs none k ch hmem hc ha
  have h3 : ∀ (ct : Option Ctype) (a : Bool) (pfx : String) (act : Bool)
      (cs : List (String × Node)) (k1 : String) (a2 : Bool)
      (cs2 : List (String × Node)) (k2 : String) (ch2 : Node),
      ¬(a ∧ ¬act) → (k1, Node.blk a2 cs2) ∈ cs → (¬a ∨ a2) →
      (k2, ch2) ∈ cs2 →
      (ct = none ∨ ct = some ch2.ctype ∨ ch2.ctype = .Block) →
      (¬a ∨ ch2.activeDefault) →
      (ch2, (pfx ++ k1) ++ "." ++ k2) ∈ genNames ct a pfx (.blk act cs) := by
    intro ct a pfx act cs k1 a2 cs2 k2 ch2 hroot hmem1 hact1 hmem2 hc2 ha2
    rw [genNames, if_neg hroot]
    refine genNamesKids_blk_descend cs none k1 a2 cs2 _ hmem1 hact1 ?_
    exact mem_genNamesKids cs2 (some (segName pfx none k1)) k2 ch2 hmem2 hc2 ha2
  refine ⟨?_, h2, h3, ?_⟩
  · intro ct a pfx act cs
    rw [genNames, preorder_blk]
    by_cases h : a ∧ ¬act
    · rw [if_pos h, if_pos h]
      rfl
    · rw [if_neg h, if_neg h, if_pos (Or.inl (by trivial)), List.singleton_append,
        List.tail_cons]
      exact (genNames_fst_aux ct a pfx (Node.szL cs)).1 cs (Nat.le_refl _) none
  · have := h3 none false "" true
      [("b", Node.blk true
        [("x", Node.leaf (.C 0) none), ("y", Node.leaf (.C 1) (some false))])]
      "b" true [("x", Node.leaf (.C 0) none), ("y", Node.leaf (.C 1) (some false))]
      "x" (Node.leaf (.C 0) none)
      (by simp) (List.mem_cons_self _ _) (Or.inl (by simp)) (List.mem_cons_self _ _)
      (Or.inl rfl) (Or.inl (by simp))
    have hname : ((("" : String) ++ "b") ++ "." ++ "x") = "b.x" := by decide
    rw [hname] at this
    exact this

/-- Witness for C8: the §8 scenario, obtained directly from the claim
theorem's grandchild rule. -/
theorem C8_generate_names_witness :
    (Node.leaf (.C 0) none, "b.x") ∈ genNames none false ""
      (.blk true [("b", Node.blk true
        [("x", Node.leaf (.C 0) none), ("y", Node.leaf (.C 1) (some false))])]) :=
  C8_generate_names.2.2.2

/-- C2: over the same `(ctype, active, include_parent_blocks)` arguments,
`preorder_traversal` and `postorder_traversal` yield permutations of one
another — the same (key, node) entries, hence the same set of visited
nodes, differing only in emission order — and postorder emits a block
strictly after all of its (filtered, recursively processed) descendants:
its own entry is the final suffix after the whole child walk. -/
theorem C2_pre_post_same_set (ct : Option Ctype) (a ipb : Bool)
    (rk : Option String) (t : Node) :
    (preorder ct a ipb rk t).Perm (postorder ct a ipb rk t)
    ∧ (∀ p, p ∈ preorder ct a ipb rk t ↔ p ∈ postorder ct a ipb rk t)
    ∧ (∀ (act : Bool) (cs : List (String × Node)),
        postorder ct a ipb rk (.blk act cs)
          = if a ∧ ¬act then []
            else postorderKids ct a ipb cs
              ++ (if ipb ∨ ct = none ∨ ct = some .Block
                  then [(rk, Node.blk act cs)] else [])) := by
  have hperm := (prePostPerm ct a ipb t.sz).1 t (Nat.le_refl _) rk
  exact ⟨hperm, fun p => hperm.mem_iff, fun act cs => postorder_blk ct a ipb rk act cs⟩

/-! ## Claims about the attach/detach protocol -/

/-- C3: attaching an entity whose parent reference is already set raises
`DuplicateParentError` (the source's `ValueError`) and leaves the state —
this block and the entity's source tree — unchanged, except when the very
same entity is already stored at that name on this block, in which case
the attach is a silent no-op: no error, no duplicate entry, state
unchanged. -/
theorem C3_attach_duplicate_parent (st : BlockState) (n : String) (e : Entity)
    (pid : Nat) (hp : odLookup st.parent e.eid = some pid) :
    (odLookup st.dict n = some (.comp e) →
      blockSetattr st n (.comp e) = .ok false st)
    ∧ (odLookup st.dict n ≠ some (.comp e) →
      blockSetattr st n (.comp e) = .err st) := by
  constructor
  · intro hd
    simp only [blockSetattr, hp, if_pos hd, odInsert_self hd]
  · intro hd
    simp only [blockSetattr, hp, if_neg hd]

/-- Witness for C3 at a concrete one-child block: re-attaching the stored
child at its own name is a no-op, attaching it at a fresh name raises. -/
theorem C3_attach_duplicate_parent_witness :
    blockSetattr stOne "x" (.comp eVar) = .ok false stOne
    ∧ blockSetattr stOne "y" (.comp eVar) = .err stOne :=
  ⟨(C3_attach_duplicate_parent stOne "x" eVar 0 (by decide)).1 (by decide),
   (C3_attach_duplicate_parent stOne "y" eVar 0 (by decide)).2 (by decide)⟩

/-- C4: attaching a parentless entity over a name bound to a different
entity first detaches the old entity (parent reference cleared, removed
from the order index and from every category bucket), produces the
warning-level diagnostic rather than an error, and attaches the new entity
(parent set to this block, registered at the name in the order index and
in its category's bucket). -/
theorem C4_implicit_replacement (st : BlockState) (n : String)
    (old new : Entity) (hwf : WF st)
    (hold : odLookup st.dict n = some (.comp old))
    (hnew : odLookup st.parent new.eid = none) (_hne : new ≠ old) :
    ∃ st2,
      blockSetattr st n (.comp new) = .ok true st2
      ∧ odLookup st2.parent old.eid = none
      ∧ odLookup st2.parent new.eid = some st.bid
      ∧ odLookup st2.order n = some new
      ∧ odLookup (bucketOf st2.byctype new.ct) n = some new
      ∧ (∀ k, odLookup st2.order k ≠ some old)
      ∧ (∀ c k, odLookup (bucketOf st2.byctype c) k ≠ some old) := by
  have hsome : (odLookup st.dict n).isSome = true := by
    rw [hold]
    rfl
  have horder_old : odLookup st.order n = some old := by
    rw [WF_dict_lookup hwf n] at hold
    cases ho : odLookup st.order n with
    | none => simp [ho] at hold
    | some e2 =>
      rw [ho] at hold
      simp at hold
      rw [hold]
  have hmem_old : (n, old) ∈ st.order := odLookup_mem horder_old
  have hpar_old : odLookup st.parent old.eid = some st.bid :=
    hwf.2.2.2.2.2.2.2 (n, old) hmem_old
  have heid_ne : old.eid ≠ new.eid := by
    intro hc
    rw [hc, hnew] at hpar_old
    exact Option.noConfusion hpar_old
  have hst1 : delattrCore st n =
      { st with
        dict := odErase st.dict n
        order := odErase st.order n
        byctype := bucketErase st.byctype old.ct n
        parent := odErase st.parent old.eid } := by
    simp only [delattrCore, hold]
  have hwf1 : WF (delattrCore st n) := WF_delattrCore n hwf
  have horder1 : odLookup (delattrCore st n).order n = none := by
    rw [hst1]
    exact odLookup_odErase_self hwf.2.1
  have hatt := @attachState_of_isSome st n new hsome
  have hwf2 : WF (attachState st n new) := WF_attachState n new hwf hnew
  have hpar2 : odLookup (attachState st n new).parent old.eid = none := by
    rw [hatt]
    show odLookup (odInsert (delattrCore st n).parent new.eid st.bid) old.eid = none
    rw [odLookup_odInsert_ne _ _ (fun hc => heid_ne hc.symm), hst1]
    exact odLookup_odErase_self hwf.2.2.2.2.1
  refine ⟨attachState st n new, ?_, hpar2, ?_, ?_, ?_, ?_, ?_⟩
  · simp only [blockSetattr, hnew, hold]
    rfl
  · rw [hatt]
    exact odLookup_odInsert_self _ _ _
  · rw [hatt]
    exact odLookup_odInsert_self _ _ _
  · rw [hatt]
    show odLookup (bucketOf (bucketInsert (delattrCore st n).byctype new.ct n new) new.ct) n
      = some new
    rw [bucketOf_bucketInsert_self _ _ _ _ (WF_bucket_lookup_none hwf1 horder1 new.ct),
      odLookup_append_right (WF_bucket_lookup_none hwf1 horder1 new.ct)]
    simp
  · intro k hk
    have hm := odLookup_mem hk
    have := hwf2.2.2.2.2.2.2.2 (k, old) hm
    rw [show ((k, old) : String × Entity).2.eid = old.eid from rfl, hpar2] at this
    exact Option.noConfusion this
  · intro c k hk
    have hm := odLookup_mem hk
    have hmo := (WF_bucketOf_mem hwf2 hm).1
    have := hwf2.2.2.2.2.2.2.2 (k, old) hmo
    rw [show ((k, old) : String × Entity).2.eid = old.eid from rfl, hpar2] at this
    exact Option.noConfusion this

/-- Witness for C4: replacing the stored child "x" of a one-child block by
a fresh entity of another category succeeds with the warning. -/
theorem C4_implicit_replacement_witness :
    ∃ st2,
      blockSetattr stOne "x" (.comp eCon) = .ok true st2
      ∧ odLookup st2.parent eVar.eid = none
      ∧ odLookup st2.parent eCon.eid = some stOne.bid
      ∧ odLookup st2.order "x" = some eCon
      ∧ odLookup (bucketOf st2.byctype eCon.ct) "x" = some eCon
      ∧ (∀ k, odLookup st2.order k ≠ some eVar)
      ∧ (∀ c k, odLookup (bucketOf st2.byctype c) k ≠ some eVar) :=
  C4_implicit_replacement stOne "x" eVar eCon (by decide) (by decide) (by decide)
    (by decide)

/-- C5: attaching a parentless entity and then detaching its name leaves
the entity parentless and the name absent from `children(with_keys=True)`;
the detach removes the entity from the declaration-order index and from
its category bucket, and no empty category bucket survives (an emptied
bucket is deleted). -/
theorem C5_attach_detach_roundtrip (st : BlockState) (n : String) (e : Entity)
    (hwf : WF st) (hp : odLookup st.parent e.eid = none) :
    ∃ w st1 st2,
      blockSetattr st n (.comp e) = .ok w st1
      ∧ blockDelattr st1 n = .ok st2
      ∧ odLookup st2.parent e.eid = none
      ∧ odLookup (blockChildren st2 none) n = none
      ∧ odLookup st2.order n = none
      ∧ (∀ k, odLookup (bucketOf st2.byctype e.ct) k ≠ some e)
      ∧ (∀ p ∈ st2.byctype, p.2 ≠ []) := by
  have hwf1 : WF (attachState st n e) := WF_attachState n e hwf hp
  have hd1 : odLookup (attachState st n e).dict n = some (.comp e) :=
    attachState_dict_lookup st n e
  have hdel : blockDelattr (attachState st n e) n
      = .ok (delattrCore (attachState st n e) n) := by
    unfold blockDelattr
    rw [if_pos (by rw [hd1]; rfl)]
  have hst2 : delattrCore (attachState st n e) n =
      { attachState st n e with
        dict := odErase (attachState st n e).dict n
        order := odErase (attachState st n e).order n
        byctype := bucketErase (attachState st n e).byctype e.ct n
        parent := odErase (attachState st n e).parent e.eid } := by
    simp only [delattrCore, hd1]
  have hwf2 : WF (delattrCore (attachState st n e) n) :=
    WF_delattrCore n hwf1
  have hpar2 : odLookup (delattrCore (attachState st n e) n).parent e.eid = none := by
    rw [hst2]
    exact odLookup_odErase_self hwf1.2.2.2.2.1
  have horder2 : odLookup (delattrCore (attachState st n e) n).order n = none := by
    rw [hst2]
    exact odLookup_odErase_self hwf1.2.1
  refine ⟨(odLookup st.dict n).isSome, attachState st n e,
    delattrCore (attachState st n e) n, ?_, hdel, hpar2, horder2, horder2, ?_, ?_⟩
  · simp only [blockSetattr, hp]
  · intro k hk
    have hm := odLookup_mem hk
    have hmo := (WF_bucketOf_mem hwf2 hm).1
    have := hwf2.2.2.2.2.2.2.2 (k, e) hmo
    rw [show ((k, e) : String × Entity).2.eid = e.eid from rfl, hpar2] at this
    exact Option.noConfusion this
  · intro p hp2
    exact (hwf2.2.2.2.2.2.1 p hp2).1

/-- Witness for C5: attach a fresh entity at a fresh name on the one-child
block, detach it again. -/
theorem C5_attach_detach_roundtrip_witness :
    ∃ w st1 st2,
      blockSetattr stOne "y" (.comp eCon) = .ok w st1
      ∧ blockDelattr st1 "y" = .ok st2
      ∧ odLookup st2.parent eCon.eid = none
      ∧ odLookup (blockChildren st2 none) "y" = none
      ∧ odLookup st2.order "y" = none
      ∧ (∀ k, odLookup (bucketOf st2.byctype eCon.ct) k ≠ some eCon)
      ∧ (∀ p ∈ st2.byctype, p.2 ≠ []) :=
  C5_attach_detach_roundtrip stOne "y" eCon (by decide) (by decide)

/-- C6: in every state reachable from a fresh dynamic block by attach and
detach operations, the declaration-order index and the per-category index
agree on membership: order keys and entity identities are unambiguous,
every order entry appears in the bucket of its own category, and every
bucket entry is an order entry of the bucket's category stored under a
bucket-unique key (so nothing appears in one index without the other, and
nothing appears twice or in two buckets). -/
theorem C6_index_agreement (bid : Nat) (ops : List BOp) :
    ((applyOps (freshBlock bid) ops).order.map Prod.fst).Nodup
    ∧ ((applyOps (freshBlock bid) ops).order.map (fun p => p.2.eid)).Nodup
    ∧ (∀ q ∈ (applyOps (freshBlock bid) ops).order,
        q ∈ bucketOf (applyOps (freshBlock bid) ops).byctype q.2.ct)
    ∧ (∀ p ∈ (applyOps (freshBlock bid) ops).byctype,
        (p.2.map Prod.fst).Nodup
        ∧ ∀ q ∈ p.2, q ∈ (applyOps (freshBlock bid) ops).order ∧ q.2.ct = p.1) := by
  have hwf := WF_applyOps ops (WF_freshBlock bid)
  refine ⟨hwf.2.1, hwf.2.2.1, hwf.2.2.2.2.2.2.1, fun p hp => ?_⟩
  obtain ⟨-, hnd, hq⟩ := hwf.2.2.2.2.2.1 p hp
  exact ⟨hnd, hq⟩

/-- Witness for C6 after a concrete attach/detach/attach sequence. -/
theorem C6_index_agreement_witness :
    ("x", eCon) ∈ bucketOf
      (applyOps (freshBlock 0)
        [BOp.attach "x" eVar, BOp.detach "x", BOp.attach "x" eCon]).byctype
      eCon.ct :=
  (C6_index_agreement 0
    [BOp.attach "x" eVar, BOp.detach "x", BOp.attach "x" eCon]).2.2.1
    ("x", eCon) (by decide)

/-- C10: `children` yields only categorized entities. Assigning a plain
(non-component) value on a dynamic block never touches the order index,
the category index or any parent reference, so it never shows up in
`children`; and `StaticBlock.children` yields only attribute values that
are categorized objects, never plain values such as the `_parent` and
`_active` bookkeeping slots. -/
theorem C10_children_only_categorized :
    (∀ (st : BlockState) (n : String) (v : Nat),
      ∃ st2, blockSetattr st n (.plain v) = .ok false st2
        ∧ st2.order = st.order
        ∧ st2.byctype = st.byctype
        ∧ st2.parent = st.parent
        ∧ blockChildren st2 none = blockChildren st none
        ∧ (∀ c, blockChildren st2 (some c) = blockChildren st (some c)))
    ∧ (∀ (attrs : List (String × AttrVal)) (ct : Option Ctype),
        ∀ p ∈ staticChildren attrs ct, ∃ e2, p.2 = AttrVal.comp e2)
    ∧ (∀ (attrs : List (String × AttrVal)) (ct : Option Ctype) (n : String) (v : Nat),
        (n, AttrVal.plain v) ∉ staticChildren attrs ct) := by
  refine ⟨?_, ?_, ?_⟩
  · intro st n v
    exact ⟨_, rfl, rfl, rfl, rfl, rfl, fun c => rfl⟩
  · intro attrs ct p hp
    have := (List.mem_filter.mp hp).2
    cases hv : p.2 with
    | comp e2 => exact ⟨e2, rfl⟩
    | plain w =>
      rw [hv] at this
      simp at this
  · intro attrs ct n v hp
    have := (List.mem_filter.mp hp).2
    simp at this

/-- Witness for C10: a static block whose slots are a parent
back-reference, an active flag and one component yields only that
component from `children`. -/
theorem C10_children_only_categorized_witness :
    ∃ e2, (("x", AttrVal.comp eVar) : String × AttrVal).2 = AttrVal.comp e2 :=
  C10_children_only_categorized.2.1
    [("_parent", AttrVal.plain 0), ("_active", AttrVal.plain 1), ("x", AttrVal.comp eVar)]
    none ("x", AttrVal.comp eVar) (by decide)

/-! ## Lemmas for `components`, `blocks` and `collect_ctypes` (claim C7) -/

theorem wfL_mem {cs : List (String × Node)} (h : Node.wfL cs = true) :
    ∀ p ∈ cs, Node.wf p.2 = true := by
  induction cs with
  | nil => intro p hp; cases hp
  | cons hd tl ih =>
    obtain ⟨k, n⟩ := hd
    rw [Node.wfL, Bool.and_eq_true] at h
    intro p hp
    rcases List.mem_cons.mp hp with rfl | hp2
    · exact h.1
    · exact ih h.2 p hp2

theorem filledL_mem {cs : List (String × Node)} (h : Node.filledL cs = true) :
    ∀ p ∈ cs, Node.filled p.2 = true := by
  induction cs with
  | nil => intro p hp; cases hp
  | cons hd tl ih =>
    obtain ⟨k, n⟩ := hd
    rw [Node.filledL, Bool.and_eq_true] at h
    intro p hp
    rcases List.mem_cons.mp hp with rfl | hp2
    · exact h.1
    · exact ih h.2 p hp2

theorem wf_blk_iff {act : Bool} {cs : List (String × Node)} :
    Node.wf (.blk act cs) = true ↔ Node.wfL cs = true := by
  rw [Node.wf]

theorem filled_blk_iff {act : Bool} {cs : List (String × Node)} :
    Node.filled (.blk act cs) = true ↔ Node.filledL cs = true := by
  rw [Node.filled]

theorem wf_cont_parts {c : Ctype} {fl : Option Bool} {cs : List (String × Node)}
    (h : Node.wf (.cont c fl cs) = true) :
    (∀ p ∈ cs, p.2.ctype = c) ∧ (c = .Block → fl.isSome = true)
      ∧ (fl = none → ∀ p ∈ cs, p.2.activeFlag = none) ∧ Node.wfL cs = true := by
  rw [Node.wf] at h
  simp only [Bool.and_eq_true, Bool.or_eq_true, Bool.not_eq_true',
    List.all_eq_true, decide_eq_true_eq, decide_eq_false_iff_not] at h
  obtain ⟨⟨⟨h1, h2⟩, h3⟩, h4⟩ := h
  refine ⟨fun p hp => h1 p hp, ?_, ?_, h4⟩
  · intro hc
    rcases h2 with h2 | h2
    · exact absurd hc h2
    · exact h2
  · intro hfl p hp
    rcases h3 with h3 | h3
    · rw [hfl] at h3
      simp at h3
    · have := h3 p hp
      simpa [Option.isNone_iff_eq_none] using this

theorem filled_cont_parts {c : Ctype} {fl : Option Bool} {cs : List (String × Node)}
    (h : Node.filled (.cont c fl cs) = true) :
    contComponentsL cs ≠ [] ∧ Node.filledL cs = true := by
  rw [Node.filled] at h
  simp only [Bool.and_eq_true, Bool.not_eq_true', List.isEmpty_eq_false] at h
  exact h

theorem contComponentsL_wf_memN (N : Nat) :
    ∀ (l : List (String × Node)) (c : Ctype), Node.szL l ≤ N →
      (∀ p ∈ l, p.2.ctype = c ∧ Node.wf p.2 = true) →
      ∀ m ∈ contComponentsL l,
        m.ctype = c ∧ Node.wf m = true ∧ m.isComponent = true := by
  induction N with
  | zero =>
    intro l c hl hmem m hm
    cases l with
    | nil => simp [contComponentsL] at hm
    | cons hd tl =>
      obtain ⟨k, n⟩ := hd
      exfalso
      have := Node.sz_pos n
      simp only [Node.szL] at hl
      omega
  | succ N ih =>
    intro l c hl hmem m hm
    cases l with
    | nil => simp [contComponentsL] at hm
    | cons hd tl =>
      obtain ⟨k, n⟩ := hd
      have hhead := hmem (k, n) (List.mem_cons_self _ _)
      have htl : Node.szL tl ≤ N := by
        have := Node.sz_pos n
        simp only [Node.szL] at hl
        omega
      have htlmem : ∀ p ∈ tl, p.2.ctype = c ∧ Node.wf p.2 = true :=
        fun p hp => hmem p (List.mem_cons_of_mem _ hp)
      cases n with
      | leaf c2 a2 =>
        simp only [contComponentsL] at hm
        rcases List.mem_cons.mp hm with rfl | hm2
        · exact ⟨hhead.1, hhead.2, rfl⟩
        · exact ih tl c htl htlmem m hm2
      | blk a2 cs2 =>
        simp only [contComponentsL] at hm
        rcases List.mem_cons.mp hm with rfl | hm2
        · exact ⟨hhead.1, hhead.2, rfl⟩
        · exact ih tl c htl htlmem m hm2
      | cont c2 a2 cs2 =>
        simp only [contComponentsL] at hm
        rcases List.mem_append.mp hm with hm2 | hm2
        · have hc2 : c2 = c := hhead.1
          obtain ⟨hhom, -, -, hwfl⟩ := wf_cont_parts hhead.2
          have hcs2 : Node.szL cs2 ≤ N := by
            simp only [Node.szL, Node.sz] at hl
            omega
          refine ih cs2 c hcs2 ?_ m hm2
          intro p hp
          exact ⟨by rw [hhom p hp, hc2], wfL_mem hwfl p hp⟩
        · exact ih tl c htl htlmem m hm2

theorem contComponentsL_wf_mem {l : List (String × Node)} {c : Ctype}
    (hmem : ∀ p ∈ l, p.2.ctype = c ∧ Node.wf p.2 = true) :
    ∀ m ∈ contComponentsL l,
      m.ctype = c ∧ Node.wf m = true ∧ m.isComponent = true :=
  contComponentsL_wf_memN (Node.szL l) l c (Nat.le_refl _) hmem

theorem contComponentsL_flaglessN (N : Nat) :
    ∀ l : List (String × Node), Node.szL l ≤ N →
      (∀ p ∈ l, p.2.activeFlag = none ∧ Node.wf p.2 = true) →
      ∀ m ∈ contComponentsL l, m.activeFlag = none := by
  induction N with
  | zero =>
    intro l hl hmem m hm
    cases l with
    | nil => simp [contComponentsL] at hm
    | cons hd tl =>
      obtain ⟨k, n⟩ := hd
      exfalso
      have := Node.sz_pos n
      simp only [Node.szL] at hl
      omega
  | succ N ih =>
    intro l hl hmem m hm
    cases l with
    | nil => simp [contComponentsL] at hm
    | cons hd tl =>
      obtain ⟨k, n⟩ := hd
      have hhead := hmem (k, n) (List.mem_cons_self _ _)
      have htl : Node.szL tl ≤ N := by
        have := Node.sz_pos n
        simp only [Node.szL] at hl
        omega
      have htlmem : ∀ p ∈ tl, p.2.activeFlag = none ∧ Node.wf p.2 = true :=
        fun p hp => hmem p (List.mem_cons_of_mem _ hp)
      cases n with
      | leaf c2 a2 =>
        simp only [contComponentsL] at hm
        rcases List.mem_cons.mp hm with rfl | hm2
        · exact hhead.1
        · exact ih tl htl htlmem m hm2
      | blk a2 cs2 =>
        simp only [contComponentsL] at hm
        rcases List.mem_cons.mp hm with rfl | hm2
        · exact hhead.1
        · exact ih tl htl htlmem m hm2
      | cont c2 a2 cs2 =>
        simp only [contComponentsL] at hm
        rcases List.mem_append.mp hm with hm2 | hm2
        · obtain ⟨-, -, hflag, hwfl⟩ := wf_cont_parts hhead.2
          have hfl : a2 = none := by
            simpa [Node.activeFlag] using hhead.1
          have hcs2 : Node.szL cs2 ≤ N := by
            simp only [Node.szL, Node.sz] at hl
            omega
          refine ih cs2 hcs2 ?_ m hm2
          intro p hp
          exact ⟨hflag hfl p hp, wfL_mem hwfl p hp⟩
        · exact ih tl htl htlmem m hm2

theorem componentsDescend_cons (ct : Option Ctype) (a d : Bool) (k : String)
    (ch : Node) (rest : List (String × Node)) :
    componentsDescend ct a d ((k, ch) :: rest)
      = (if ¬a ∨ ch.activeDefault then
          match ch with
          | .cont _ _ cs2 =>
            (contComponentsL cs2).flatMap
              (fun m => if ¬a ∨ m.activeDefault then componentsM ct a d m else [])
          | m => componentsM ct a d m
        else []) ++ componentsDescend ct a d rest := by
  cases ch with
  | leaf c2 a2 => simp only [componentsDescend]
  | blk a2 cs2 => simp only [componentsDescend]
  | cont c2 a2 cs2 =>
    simp only [componentsDescend]
    rw [attach_flatMap_eq _ _
      (fun m => if ¬a ∨ m.activeDefault then componentsM ct a d m else [])
      (fun x => rfl)]

theorem componentsDescend_nofilter (ct : Option Ctype) (d : Bool) :
    ∀ l : List (String × Node),
      componentsDescend ct false d l
        = (l.flatMap (fun p =>
            match p.2 with
            | .cont _ _ cs2 => contComponentsL cs2
            | m => [m])).flatMap (componentsM ct false d) := by
  intro l
  induction l with
  | nil => simp [componentsDescend]
  | cons hd tl ih =>
    obtain ⟨k, ch⟩ := hd
    rw [componentsDescend_cons, List.flatMap_cons, List.flatMap_append, ih]
    congr 1
    cases ch with
    | leaf c2 a2 => simp
    | blk a2 cs2 => simp
    | cont c2 a2 cs2 =>
      rw [if_pos (Or.inl (by simp))]
      simp

theorem componentsOwn_nofilter (ct : Option Ctype) (cs : List (String × Node)) :
    componentsOwn ct false cs
      = (childrenFilter cs ct).flatMap (fun p =>
          match p.2 with
          | .cont _ _ cs2 => contComponentsL cs2
          | m => [m]) := by
  rw [componentsOwn]
  congr 1

theorem componentsM_blk_split (ct : Option Ctype) (act : Bool)
    (cs : List (String × Node)) :
    componentsM ct false true (.blk act cs)
      = componentsOwn ct false cs
        ++ (componentsOwn (some .Block) false cs).flatMap
            (componentsM ct false true) := by
  rw [componentsM, if_neg (by simp), if_pos rfl, componentsDescend_nofilter,
    componentsOwn_nofilter, componentsOwn_nofilter]

theorem blocksM_blk (act : Bool) (cs : List (String × Node)) :
    blocksM false true (.blk act cs)
      = Node.blk act cs :: componentsM (some .Block) false true (.blk act cs) := by
  rw [blocksM, if_pos (Or.inl (by simp))]

theorem collectCtypesND_false (act : Bool) (cs : List (String × Node)) :
    collectCtypesND false (.blk act cs) = (cs.map (fun p => p.2.ctype)).dedup := by
  rw [collectCtypesND, if_pos (by simp)]

theorem contComponentsL_filledN (N : Nat) :
    ∀ l : List (String × Node), Node.szL l ≤ N →
      (∀ p ∈ l, Node.filled p.2 = true) →
      ∀ m ∈ contComponentsL l, Node.filled m = true := by
  induction N with
  | zero =>
    intro l hl hmem m hm
    cases l with
    | nil => simp [contComponentsL] at hm
    | cons hd tl =>
      obtain ⟨k, n⟩ := hd
      exfalso
      have := Node.sz_pos n
      simp only [Node.szL] at hl
      omega
  | succ N ih =>
    intro l hl hmem m hm
    cases l with
    | nil => simp [contComponentsL] at hm
    | cons hd tl =>
      obtain ⟨k, n⟩ := hd
      have hhead := hmem (k, n) (List.mem_cons_self _ _)
      have htl : Node.szL tl ≤ N := by
        have := Node.sz_pos n
        simp only [Node.szL] at hl
        omega
      have htlmem : ∀ p ∈ tl, Node.filled p.2 = true :=
        fun p hp => hmem p (List.mem_cons_of_mem _ hp)
      cases n with
      | leaf c2 a2 =>
        simp only [contComponentsL] at hm
        rcases List.mem_cons.mp hm with rfl | hm2
        · exact hhead
        · exact ih tl htl htlmem m hm2
      | blk a2 cs2 =>
        simp only [contComponentsL] at hm
        rcases List.mem_cons.mp hm with rfl | hm2
        · exact hhead
        · exact ih tl htl htlmem m hm2
      | cont c2 a2 cs2 =>
        simp only [contComponentsL] at hm
        rcases List.mem_append.mp hm with hm2 | hm2
        · obtain ⟨-, hfilledL⟩ := filled_cont_parts hhead
          have hcs2 : Node.szL cs2 ≤ N := by
            simp only [Node.szL, Node.sz] at hl
            omega
          exact ih cs2 hcs2 (filledL_mem hfilledL) m hm2
        · exact ih tl htl htlmem m hm2

theorem mem_own_ctypes {act : Bool} {cs : List (String × Node)}
    (hwf : Node.wf (.blk act cs) = true) (hfill : Node.filled (.blk act cs) = true)
    (c : Ctype) :
    c ∈ (componentsOwn none false cs).map Node.ctype
      ↔ c ∈ cs.map (fun p => p.2.ctype) := by
  have hwfl := wf_blk_iff.mp hwf
  have hfl := filled_blk_iff.mp hfill
  rw [componentsOwn_nofilter]
  constructor
  · intro h
    obtain ⟨m, hm, hc⟩ := List.mem_map.mp h
    obtain ⟨p, hp, hmp⟩ := List.mem_flatMap.mp hm
    rw [show childrenFilter cs none = cs from rfl] at hp
    refine List.mem_map.mpr ⟨p, hp, ?_⟩
    obtain ⟨k, n⟩ := p
    cases n with
    | leaf c2 a2 =>
      rcases List.mem_singleton.mp hmp with rfl
      exact hc
    | blk a2 cs2 =>
      rcases List.mem_singleton.mp hmp with rfl
      exact hc
    | cont c2 a2 cs2 =>
      have hwfn : Node.wf (Node.cont c2 a2 cs2) = true := wfL_mem hwfl (k, _) hp
      obtain ⟨hhom, -, -, hwfl2⟩ := wf_cont_parts hwfn
      have hchar := contComponentsL_wf_mem
        (fun q hq => ⟨hhom q hq, wfL_mem hwfl2 q hq⟩) m hmp
      rw [← hc, hchar.1]
      rfl
  · intro h
    obtain ⟨p, hp, hc⟩ := List.mem_map.mp h
    obtain ⟨k, n⟩ := p
    cases n with
    | leaf c2 a2 =>
      refine List.mem_map.mpr ⟨Node.leaf c2 a2, ?_, hc⟩
      exact List.mem_flatMap.mpr ⟨(k, .leaf c2 a2), hp, List.mem_singleton.mpr rfl⟩
    | blk a2 cs2 =>
      refine List.mem_map.mpr ⟨Node.blk a2 cs2, ?_, hc⟩
      exact List.mem_flatMap.mpr ⟨(k, .blk a2 cs2), hp, List.mem_singleton.mpr rfl⟩
    | cont c2 a2 cs2 =>
      have hwfn : Node.wf (Node.cont c2 a2 cs2) = true := wfL_mem hwfl (k, _) hp
      have hfln : Node.filled (Node.cont c2 a2 cs2) = true := filledL_mem hfl (k, _) hp
      obtain ⟨hne, -⟩ := filled_cont_parts hfln
      obtain ⟨m, hm⟩ := List.exists_mem_of_ne_nil _ hne
      obtain ⟨hhom, -, -, hwfl2⟩ := wf_cont_parts hwfn
      have hchar := contComponentsL_wf_mem
        (fun q hq => ⟨hhom q hq, wfL_mem hwfl2 q hq⟩) m hm
      refine List.mem_map.mpr ⟨m, ?_, by rw [hchar.1]; exact hc⟩
      exact List.mem_flatMap.mpr ⟨(k, .cont c2 a2 cs2), hp, hm⟩

theorem mem_own_block {act : Bool} {cs : List (String × Node)}
    (hwf : Node.wf (.blk act cs) = true) (hfill : Node.filled (.blk act cs) = true) :
    ∀ m ∈ componentsOwn (some .Block) false cs,
      (∃ a2 cs2, m = Node.blk a2 cs2) ∧ Node.wf m = true ∧ Node.filled m = true
        ∧ Node.sz m ≤ Node.szL cs := by
  have hwfl := wf_blk_iff.mp hwf
  have hfl := filled_blk_iff.mp hfill
  intro m hm
  rw [componentsOwn_nofilter] at hm
  obtain ⟨p, hp, hmp⟩ := List.mem_flatMap.mp hm
  rw [childrenFilter] at hp
  have hp2 := List.mem_filter.mp hp
  have hpcs : p ∈ cs := hp2.1
  have hpct : p.2.ctype = .Block := by simpa using hp2.2
  obtain ⟨k, n⟩ := p
  have hwfn : Node.wf n = true := wfL_mem hwfl (k, n) hpcs
  have hfln : Node.filled n = true := filledL_mem hfl (k, n) hpcs
  cases n with
  | leaf c2 a2 =>
    exfalso
    rw [Node.wf] at hwfn
    simp only [decide_eq_true_eq] at hwfn
    exact hwfn (by simpa [Node.ctype] using hpct)
  | blk a2 cs2 =>
    rcases List.mem_singleton.mp hmp with rfl
    exact ⟨⟨a2, cs2, rfl⟩, hwfn, hfln, Node.sz_le_szL hpcs⟩
  | cont c2 a2 cs2 =>
    have hc2 : c2 = Ctype.Block := by simpa [Node.ctype] using hpct
    obtain ⟨hhom, -, -, hwfl2⟩ := wf_cont_parts hwfn
    have hchar := contComponentsL_wf_mem
      (fun q hq => ⟨hhom q hq, wfL_mem hwfl2 q hq⟩) m hmp
    obtain ⟨hmct, hmwf, hmcomp⟩ := hchar
    have hfill2 := (filled_cont_parts hfln).2
    have hmfill : Node.filled m = true :=
      contComponentsL_filledN (Node.szL cs2) cs2 (Nat.le_refl _)
        (filledL_mem hfill2) m hmp
    have hmsz : Node.sz m ≤ Node.szL cs2 := contComponentsL_sz cs2 m hmp
    have hsz2 : Node.sz (Node.cont c2 a2 cs2) ≤ Node.szL cs := Node.sz_le_szL hpcs
    cases m with
    | leaf c3 a3 =>
      exfalso
      rw [Node.wf] at hmwf
      simp only [decide_eq_true_eq] at hmwf
      refine hmwf ?_
      rw [hc2] at hmct
      simpa [Node.ctype] using hmct
    | cont c3 a3 cs3 => simp [Node.isComponent] at hmcomp
    | blk a3 cs3 =>
      refine ⟨⟨a3, cs3, rfl⟩, hmwf, hmfill, ?_⟩
      simp only [Node.sz] at hsz2 hmsz ⊢
      omega

theorem collect_eq_componentsN (N : Nat) :
    ∀ (act : Bool) (cs : List (String × Node)),
      Node.sz (.blk act cs) ≤ N →
      Node.wf (.blk act cs) = true → Node.filled (.blk act cs) = true →
      ∀ c : Ctype,
        (c ∈ (componentsM none false true (.blk act cs)).map Node.ctype
          ↔ c ∈ (blocksM false true (.blk act cs)).flatMap (collectCtypesND false)) := by
  induction N with
  | zero =>
    intro act cs hsz
    exfalso
    simp only [Node.sz] at hsz
    omega
  | succ N ih =>
    intro act cs hsz hwf hfill c
    have hCO := mem_own_block hwf hfill
    constructor
    · intro h
      rw [componentsM_blk_split, List.map_append] at h
      rcases List.mem_append.mp h with h1 | h1
      · have := (mem_own_ctypes hwf hfill c).mp h1
        rw [blocksM_blk, List.flatMap_cons]
        refine List.mem_append_left _ ?_
        rw [collectCtypesND_false]
        exact List.mem_dedup.mpr this
      · rw [List.map_flatMap] at h1
        obtain ⟨m, hm, hc⟩ := List.mem_flatMap.mp h1
        obtain ⟨⟨a2, cs2, rfl⟩, hmwf, hmfill, hmsz⟩ := hCO m hm
        have hszm : Node.sz (Node.blk a2 cs2) ≤ N := by
          simp only [Node.sz] at hsz hmsz ⊢
          omega
        have h2 := (ih a2 cs2 hszm hmwf hmfill c).mp hc
        rw [blocksM_blk, List.flatMap_cons] at h2
        rw [blocksM_blk, List.flatMap_cons]
        refine List.mem_append_right _ ?_
        rw [componentsM_blk_split, List.flatMap_append]
        rcases List.mem_append.mp h2 with h3 | h3
        · refine List.mem_append_left _ ?_
          exact List.mem_flatMap.mpr ⟨Node.blk a2 cs2, hm, h3⟩
        · refine List.mem_append_right _ ?_
          obtain ⟨b2, hb2, hc2⟩ := List.mem_flatMap.mp h3
          refine List.mem_flatMap.mpr ⟨b2, ?_, hc2⟩
          exact List.mem_flatMap.mpr ⟨Node.blk a2 cs2, hm, hb2⟩
    · intro h
      rw [blocksM_blk, List.flatMap_cons] at h
      rw [componentsM_blk_split, List.map_append]
      rcases List.mem_append.mp h with h1 | h1
      · rw [collectCtypesND_false] at h1
        refine List.mem_append_left _ ?_
        exact (mem_own_ctypes hwf hfill c).mpr (List.mem_dedup.mp h1)
      · rw [componentsM_blk_split, List.flatMap_append] at h1
        refine List.mem_append_right _ ?_
        rw [List.map_flatMap]
        rcases List.mem_append.mp h1 with h2 | h2
        · obtain ⟨m, hm, hc⟩ := List.mem_flatMap.mp h2
          obtain ⟨⟨a2, cs2, rfl⟩, hmwf, hmfill, hmsz⟩ := hCO m hm
          have hszm : Node.sz (Node.blk a2 cs2) ≤ N := by
            simp only [Node.sz] at hsz hmsz ⊢
            omega
          refine List.mem_flatMap.mpr ⟨Node.blk a2 cs2, hm, ?_⟩
          refine (ih a2 cs2 hszm hmwf hmfill c).mpr ?_
          rw [blocksM_blk, List.flatMap_cons]
          exact List.mem_append_left _ hc
        · obtain ⟨b2, hb2, hc⟩ := List.mem_flatMap.mp h2
          obtain ⟨m, hm, hb2m⟩ := List.mem_flatMap.mp hb2
          obtain ⟨⟨a2, cs2, rfl⟩, hmwf, hmfill, hmsz⟩ := hCO m hm
          have hszm : Node.sz (Node.blk a2 cs2) ≤ N := by
            simp only [Node.sz] at hsz hmsz ⊢
            omega
          refine List.mem_flatMap.mpr ⟨Node.blk a2 cs2, hm, ?_⟩
          refine (ih a2 cs2 hszm hmwf hmfill c).mpr ?_
          rw [blocksM_blk, List.flatMap_cons]
          refine List.mem_append_right _ ?_
          exact List.mem_flatMap.mpr ⟨b2, hb2m, hc⟩

theorem componentsM_ndescend (ct : Option Ctype) (a : Bool) (act : Bool)
    (cs : List (String × Node)) :
    componentsM ct a false (.blk act cs)
      = if a ∧ ¬act then [] else componentsOwn ct a cs := by
  rw [componentsM]
  by_cases h : a ∧ ¬act
  · rw [if_pos h, if_pos h]
  · rw [if_neg h, if_neg h]
    simp

theorem mem_componentsND_active {act : Bool} {cs : List (String × Node)}
    (hwf : Node.wf (.blk act cs) = true) (c : Ctype) :
    ∀ m ∈ componentsM (some c) true false (.blk act cs),
      m.ctype = c ∧ m.activeDefault = true := by
  have hwfl := wf_blk_iff.mp hwf
  intro m hm
  rw [componentsM_ndescend] at hm
  by_cases hact : act = true
  · rw [if_neg (by simp [hact])] at hm
    rw [componentsOwn] at hm
    obtain ⟨p, hp, hmp⟩ := List.mem_flatMap.mp hm
    rw [childrenFilter] at hp
    have hp2 := List.mem_filter.mp hp
    have hpcs : p ∈ cs := hp2.1
    have hpct : p.2.ctype = c := by simpa using hp2.2
    obtain ⟨k, n⟩ := p
    have hwfn := wfL_mem hwfl (k, n) hpcs
    by_cases ha : Node.activeDefault n = true
    · rw [if_pos (Or.inr ha)] at hmp
      cases n with
      | leaf c2 a2 =>
        rcases List.mem_singleton.mp hmp with rfl
        exact ⟨hpct, ha⟩
      | blk a2 cs2 =>
        rcases List.mem_singleton.mp hmp with rfl
        exact ⟨hpct, ha⟩
      | cont c2 a2 cs2 =>
        obtain ⟨hhom, -, hflag, hwfl2⟩ := wf_cont_parts hwfn
        have hmp2 : m ∈ (if (true : Bool) = true ∧ a2.isSome = true then
            (contComponentsL cs2).filter (fun x => x.activeDefault)
          else contComponentsL cs2) := hmp
        by_cases hsome : a2.isSome = true
        · rw [if_pos ⟨rfl, hsome⟩] at hmp2
          have hmf := List.mem_filter.mp hmp2
          have hchar := contComponentsL_wf_mem
            (fun q hq => ⟨hhom q hq, wfL_mem hwfl2 q hq⟩) m hmf.1
          refine ⟨?_, by simpa using hmf.2⟩
          rw [hchar.1]
          exact hpct
        · rw [if_neg (fun hcon => hsome hcon.2)] at hmp2
          have ha2 : a2 = none := Option.not_isSome_iff_eq_none.mp hsome
          have hchar := contComponentsL_wf_mem
            (fun q hq => ⟨hhom q hq, wfL_mem hwfl2 q hq⟩) m hmp2
          have hflagm := contComponentsL_flaglessN (Node.szL cs2) cs2 (Nat.le_refl _)
            (fun q hq => ⟨hflag ha2 q hq, wfL_mem hwfl2 q hq⟩) m hmp2
          refine ⟨by rw [hchar.1]; exact hpct, ?_⟩
          rw [Node.activeDefault, hflagm]
          rfl
    · rw [if_neg (by simp [ha])] at hmp
      cases hmp
  · rw [if_pos ⟨rfl, by simp [hact]⟩] at hm
    cases hm

theorem componentsND_child_ctype {a act : Bool} {cs : List (String × Node)}
    {c : Ctype} {m : Node}
    (hm : m ∈ componentsM (some c) a false (.blk act cs)) :
    c ∈ cs.map (fun p => p.2.ctype) := by
  rw [componentsM_ndescend] at hm
  by_cases h : a ∧ ¬act
  · rw [if_pos h] at hm
    cases hm
  · rw [if_neg h] at hm
    rw [componentsOwn] at hm
    obtain ⟨p, hp, -⟩ := List.mem_flatMap.mp hm
    rw [childrenFilter] at hp
    have hp2 := List.mem_filter.mp hp
    exact List.mem_map.mpr ⟨p, hp2.1, by simpa using hp2.2⟩

theorem collectND_active_iff {act : Bool} {cs : List (String × Node)}
    (hwf : Node.wf (.blk act cs) = true) (c : Ctype) :
    c ∈ collectCtypesND true (.blk act cs)
      ↔ ∃ m ∈ componentsM (some c) true false (.blk act cs),
          m.ctype = c ∧ m.activeDefault = true := by
  rw [collectCtypesND, if_neg (by simp)]
  constructor
  · intro h
    have h2 := List.mem_filter.mp h
    have hne : componentsM (some c) true false (.blk act cs) ≠ [] := by
      simpa [List.isEmpty_iff] using h2.2
    obtain ⟨m, hm⟩ := List.exists_mem_of_ne_nil _ hne
    exact ⟨m, hm, mem_componentsND_active hwf c m hm⟩
  · rintro ⟨m, hm, -⟩
    refine List.mem_filter.mpr
      ⟨List.mem_dedup.mpr (componentsND_child_ctype hm), ?_⟩
    simp only [decide_eq_true_eq, List.isEmpty_iff]
    exact List.ne_nil_of_mem hm

/-- C7 (corrected): on a well-formed tree (homogeneous containers, no
`Block`-ctype leaf, flag-disciplined containers) with no
effectively-empty container, `collect_ctypes(active=None,
descend_into=True)` on the root block returns exactly the set of
distinct ctypes of the components yielded by
`components(active=None, descend_into=True)`; and with
`descend_into=False` and `active=True`, a ctype is collected exactly
when at least one active component of that ctype sits directly under the
block (possibly inside one of the block's own containers). Without the
no-empty-container proviso the first part is false. -/
theorem C7_collect_ctypes :
    (∀ (act : Bool) (cs : List (String × Node)),
        Node.wf (.blk act cs) = true → Node.filled (.blk act cs) = true →
        ∀ c : Ctype,
          (c ∈ collectCtypes false (.blk act cs)
            ↔ c ∈ (componentsM none false true (.blk act cs)).map Node.ctype))
    ∧ (∀ (act : Bool) (cs : List (String × Node)),
        Node.wf (.blk act cs) = true →
        ∀ c : Ctype,
          (c ∈ collectCtypesND true (.blk act cs)
            ↔ ∃ m ∈ componentsM (some c) true false (.blk act cs),
                m.ctype = c ∧ m.activeDefault = true)) := by
  constructor
  · intro act cs hwf hfill c
    rw [collectCtypes, List.mem_dedup]
    exact (collect_eq_componentsN (Node.sz (.blk act cs)) act cs (Nat.le_refl _)
      hwf hfill c).symm
  · intro act cs hwf c
    exact collectND_active_iff hwf c

/-- The literal C7 claim is false on the tree whose root block holds one
empty container of ctype `C 0`: the components span zero distinct
categories, yet `collect_ctypes(active=None, descend_into=True)` returns
the one-element set holding the container's ctype. -/
theorem C7_collect_ctypes_counterexample :
    (componentsM none false true
        (Node.blk true [("v", Node.cont (.C 0) none [])])).map Node.ctype = []
    ∧ collectCtypes false (Node.blk true [("v", Node.cont (.C 0) none [])])
        = [Ctype.C 0] := by
  have h1 : componentsM none false true
      (Node.blk true [("v", Node.cont (.C 0) none [])]) = [] := by
    simp only [componentsM_blk_split, componentsOwn_nofilter]
    simp [childrenFilter, contComponentsL, Node.ctype]
  have h2 : componentsM (some .Block) false true
      (Node.blk true [("v", Node.cont (.C 0) none [])]) = [] := by
    simp only [componentsM_blk_split, componentsOwn_nofilter]
    simp [childrenFilter, contComponentsL, Node.ctype]
  refine ⟨by rw [h1]; rfl, ?_⟩
  rw [collectCtypes, blocksM_blk, h2, List.flatMap_cons, List.flatMap_nil,
    collectCtypesND_false]
  simp [Node.ctype]

/-- Witness for C7: the corrected equivalence applied to a one-component
block, with the well-formedness side conditions evaluated. -/
theorem C7_collect_ctypes_witness :
    Node.wf (Node.blk true [("x", Node.leaf (.C 0) none)]) = true
    ∧ Node.filled (Node.blk true [("x", Node.leaf (.C 0) none)]) = true
    ∧ (Ctype.C 0 ∈ collectCtypes false (Node.blk true [("x", Node.leaf (.C 0) none)])
        ↔ Ctype.C 0 ∈ (componentsM none false true
            (Node.blk true [("x", Node.leaf (.C 0) none)])).map Node.ctype) :=
  ⟨by simp [Node.wf, Node.wfL], by simp [Node.filled, Node.filledL],
    C7_collect_ctypes.1 true [("x", Node.leaf (.C 0) none)]
      (by simp [Node.wf, Node.wfL]) (by simp [Node.filled, Node.filledL])
      (Ctype.C 0)⟩

/-! ## The `active` argument contract (claim C9) -/

/-- C9 (corrected): every traversal and query operation accepts only the
unset value or `True` for `active`. The plain functions
`generate_names` and `collect_ctypes` reject any other value at the
point of the call; the four generator operations
(`preorder_traversal`, `postorder_traversal`, `components`, `blocks`)
always return a generator from the call itself and raise
`InvalidFilterError` only when that generator is first advanced. -/
theorem C9_active_validation :
    (∀ (ct : Option Ctype) (act : PyActive) (pfx : String) (n : Node),
        activeArgOK act = false →
        generateNamesCall ct act pfx n = .error .invalidFilter)
    ∧ (∀ (act : PyActive) (d : Bool) (n : Node),
        activeArgOK act = false →
        collectCtypesCall act d n = .error .invalidFilter)
    ∧ (∀ (op : GenOp) (ct : Option Ctype) (act : PyActive) (ipb d : Bool)
        (n : Node), generatorCall op ct act ipb d n = .ok ⟨op, ct, act, ipb, d, n⟩)
    ∧ (∀ g : TraversalGen, activeArgOK g.act = false →
        generatorRun g = .error .invalidFilter)
    ∧ (∀ g : TraversalGen, activeArgOK g.act = true →
        ∃ out, generatorRun g = .ok out)
    ∧ (∀ act : PyActive,
        activeArgOK act = true ↔ (act = .unset ∨ act = .ptrue)) := by
  refine ⟨?_, ?_, ?_, ?_, ?_, ?_⟩
  · intro ct act pfx n h
    rw [generateNamesCall, if_neg (by rw [h]; exact Bool.false_ne_true)]
  · intro act d n h
    rw [collectCtypesCall, if_neg (by rw [h]; exact Bool.false_ne_true)]
  · intro op ct act ipb d n
    rfl
  · intro g h
    rw [generatorRun, if_neg (by rw [h]; exact Bool.false_ne_true)]
  · intro g h
    rw [generatorRun, if_pos h]
    exact ⟨_, rfl⟩
  · intro act
    cases act with
    | unset => simp [activeArgOK]
    | ptrue => simp [activeArgOK]
    | pfalse => simp [activeArgOK]
    | pother v => simp [activeArgOK]

/-- The literal C9 claim is false for the generator operations: calling
`preorder_traversal` with `active=False` succeeds (it returns a
suspended generator), and the `InvalidFilterError` surfaces only on the
first advance of that generator. -/
theorem C9_active_validation_counterexample :
    generatorCall .preorderOp none .pfalse true true (Node.blk true [])
        = .ok ⟨.preorderOp, none, .pfalse, true, true, Node.blk true []⟩
    ∧ generatorRun ⟨.preorderOp, none, .pfalse, true, true, Node.blk true []⟩
        = .error .invalidFilter
    ∧ activeArgOK .pfalse = false :=
  ⟨rfl, rfl, rfl⟩

/-- Witness for C9: the eager operations reject `active=False` at the
call, per the corrected claim applied at concrete arguments. -/
theorem C9_active_validation_witness :
    generateNamesCall none .pfalse "" (Node.blk true []) = .error .invalidFilter
    ∧ collectCtypesCall .pfalse true (Node.blk true []) = .error .invalidFilter
    ∧ generatorRun ⟨.blocksOp, none, .pother 7, true, true, Node.blk true []⟩
        = .error .invalidFilter :=
  ⟨C9_active_validation.1 none .pfalse "" (Node.blk true []) rfl,
    C9_active_validation.2.1 .pfalse true (Node.blk true []) rfl,
    C9_active_validation.2.2.2.1 ⟨.blocksOp, none, .pother 7, true, true,
      Node.blk true []⟩ rfl⟩

end PyomoBlock
